import Mathlib

/-!
# MemoryAllocator: the block list of `allocator.c`

A shallow embedding of the block list of `allocator.c` and of its operations
`initialize`, `mergeFree`, `compaction`, `release` and `bestFit`.

* The singly linked chain of `struct Block` nodes is a `List Block`; the first
  element is the dummy head node built by `initialize` (id `-2`, start `-2`,
  size `limit`), the remaining elements are the blocks of the region in list
  order.  A pointer into the chain is an index into the list.
* The C type `int` is modelled by `Int`.  Signed overflow is undefined in C; in
  a region that satisfies I1 and I2 every sum the code computes lies between
  `0` and `limit`, so no operation overflows there.
* The diagnostics printed by `bestFit` and `release` are returned as a value
  next to the new chain.
-/

namespace MemoryAllocator

/-- The node of the chain: `struct Block` without its `next` pointer. -/
structure Block where
  id : Int
  start : Int
  size : Int
deriving DecidableEq, Repr

/-- The function `newBlock` of the source. -/
def newBlock (pProcess pStart pSize : Int) : Block :=
  { id := pProcess, start := pStart, size := pSize }

/-- The function `initialize` of the source (the name is reserved in Lean): the dummy node
followed by one free block. -/
def initMemory (limit : Int) : List Block :=
  [newBlock (-2) (-2) limit, newBlock (-1) 0 limit]

/-- The loop of `mergeFree` with `nav` the current node and the list the nodes after it. -/
def mergeFreeFrom (nav : Block) : List Block → List Block
  | [] => [nav]
  | n :: rest =>
    if nav.id = -1 ∧ n.id = -1 then
      mergeFreeFrom { nav with size := nav.size + n.size } rest
    else
      nav :: mergeFreeFrom n rest

/-- The function `mergeFree` of the source, called on the node that heads the given chain. -/
def mergeFree : List Block → List Block
  | [] => []
  | nav :: rest => mergeFreeFrom nav rest

/-- The loop of `compaction` with `nav` the current node and the list the nodes after it. -/
def compactFrom (nav : Block) : List Block → List Block
  | [] => [nav]
  | n :: rest =>
    if nav.id = -1 then
      { nav with id := n.id, size := n.size } ::
        compactFrom { id := nav.id, start := nav.start + n.size, size := nav.size } rest
    else
      nav :: compactFrom n rest

/-- The swapping pass of `compaction`, before `mergeFree` is called. -/
def compactPass : List Block → List Block
  | [] => []
  | nav :: rest => compactFrom nav rest

/-- The function `compaction` of the source. -/
def compaction (memory : List Block) : List Block :=
  mergeFree (compactPass memory)

/-- The loop of `release` with `nav` the current node and the list the nodes after it;
`none` when the loop ends with `found == 0`. -/
def releaseFrom (process : Int) (nav : Block) : List Block → Option (List Block)
  | [] => none
  | n :: rest =>
    if n.id = process then
      some (mergeFreeFrom nav ({ n with id := -1 } :: rest))
    else
      (releaseFrom process n rest).map (fun l => nav :: l)

/-- What `release` reports. -/
inductive ReleaseOutcome where
  | released
  | notFound
deriving DecidableEq, Repr

/-- The function `release` of the source on a parsed process number
(`process = line[1] - 48`, the branch `line[0] == 80`). -/
def release (memory : List Block) (process : Int) : List Block × ReleaseOutcome :=
  match memory with
  | [] => ([], ReleaseOutcome.notFound)
  | nav :: rest =>
    match releaseFrom process nav rest with
    | some l => (l, ReleaseOutcome.released)
    | none => (memory, ReleaseOutcome.notFound)

/-- The scanning loop of `bestFit`: `i` is the index of the current node, `best` the
index and contents of the node `best` points to.  `none` is the early return taken
when a node carries the id `process`. -/
def bestFitScan (process reqSize : Int) :
    List Block → Nat → Option (Nat × Block) → Option (Option (Nat × Block))
  | [], _, best => some best
  | nav :: rest, i, best =>
    if nav.id = process then none
    else
      match best with
      | none =>
        if nav.id = -1 ∧ nav.size ≥ reqSize then
          bestFitScan process reqSize rest (i + 1) (some (i, nav))
        else
          bestFitScan process reqSize rest (i + 1) none
      | some (j, b) =>
        if nav.id = -1 ∧ nav.size ≥ reqSize ∧ nav.size < b.size then
          bestFitScan process reqSize rest (i + 1) (some (i, nav))
        else
          bestFitScan process reqSize rest (i + 1) (some (j, b))

/-- What `bestFit` reports. -/
inductive AllocOutcome where
  | allocated
  | alreadyExists
  | insufficientMemory
deriving DecidableEq, Repr

/-- The nodes that take the place of the node `best` when `bestFit` allocates in it. -/
def allocateIn (best : Block) (process reqSize : Int) : List Block :=
  if reqSize = best.size then
    [{ best with id := process }]
  else
    [{ best with id := process, size := reqSize },
      newBlock (-1) (best.start + reqSize) (best.size - reqSize)]

/-- The function `bestFit` of the source. -/
def bestFit (memory : List Block) (process reqSize : Int) : List Block × AllocOutcome :=
  match bestFitScan process reqSize memory 0 none with
  | none => (memory, AllocOutcome.alreadyExists)
  | some none => (memory, AllocOutcome.insufficientMemory)
  | some (some (i, best)) =>
    (memory.take i ++ allocateIn best process reqSize ++ memory.drop (i + 1),
      AllocOutcome.allocated)

/-- A region of size `limit`: the dummy head node followed by the blocks `bs`. -/
def region (limit : Int) (bs : List Block) : List Block :=
  newBlock (-2) (-2) limit :: bs

/-- The blocks of a chain: everything after the dummy head node. -/
def blocks (memory : List Block) : List Block := memory.tail

/-- The block is free. -/
def Block.isFree (b : Block) : Prop := b.id = -1

instance (b : Block) : Decidable b.isFree :=
  inferInstanceAs (Decidable (b.id = -1))

/-- The process owns a block among `bs`. -/
def owns (process : Int) (bs : List Block) : Prop := ∃ b ∈ bs, b.id = process

instance (process : Int) (bs : List Block) : Decidable (owns process bs) :=
  inferInstanceAs (Decidable (∃ b ∈ bs, b.id = process))

/-- Every two consecutive elements of the list are related by `R`. -/
def Adjacent (R : Block → Block → Prop) : List Block → Prop
  | [] => True
  | [_] => True
  | a :: b :: rest => R a b ∧ Adjacent R (b :: rest)

instance Adjacent.instDecidable (R : Block → Block → Prop) [DecidableRel R] :
    ∀ l : List Block, Decidable (Adjacent R l)
  | [] => isTrue trivial
  | [_] => isTrue trivial
  | a :: b :: rest =>
    @instDecidableAnd (R a b) (Adjacent R (b :: rest)) inferInstance
      (Adjacent.instDecidable R (b :: rest))

/-- Invariant I1: the first block starts at 0, each block starts where its predecessor
ends, the last block ends at `limit - 1`. -/
def I1 (limit : Int) (bs : List Block) : Prop :=
  (∀ b ∈ bs.head?, b.start = 0) ∧
  Adjacent (fun a b => b.start = a.start + a.size) bs ∧
  (∀ b ∈ bs.getLast?, b.start + b.size - 1 = limit - 1)

/-- Invariant I2: every block has a positive size. -/
def I2 (bs : List Block) : Prop := ∀ b ∈ bs, 0 < b.size

/-- Invariant I3: no two consecutive blocks are both free. -/
def I3 (bs : List Block) : Prop :=
  Adjacent (fun a b => ¬ (a.id = -1 ∧ b.id = -1)) bs

/-- The owners of the owned blocks, in list order. -/
def ownerIds (bs : List Block) : List Int :=
  (bs.filter (fun b => decide (b.id ≠ -1))).map (fun b => b.id)

/-- Invariant I4: no process id owns more than one block. -/
def I4 (bs : List Block) : Prop := (ownerIds bs).Nodup

instance (limit : Int) (bs : List Block) : Decidable (I1 limit bs) :=
  inferInstanceAs (Decidable ((∀ b ∈ bs.head?, b.start = 0) ∧
    Adjacent (fun a b => b.start = a.start + a.size) bs ∧
    (∀ b ∈ bs.getLast?, b.start + b.size - 1 = limit - 1)))

instance (bs : List Block) : Decidable (I2 bs) :=
  inferInstanceAs (Decidable (∀ b ∈ bs, 0 < b.size))

instance (bs : List Block) : Decidable (I3 bs) :=
  inferInstanceAs (Decidable (Adjacent (fun a b => ¬ (a.id = -1 ∧ b.id = -1)) bs))

instance (bs : List Block) : Decidable (I4 bs) :=
  inferInstanceAs (Decidable (ownerIds bs).Nodup)

/-- The sum of the sizes of the blocks. -/
def totalSize (bs : List Block) : Int := (bs.map (fun b => b.size)).sum

/-- The commands that change the region. -/
inductive Cmd where
  | rq (process reqSize : Int)
  | rl (process : Int)
  | c
deriving DecidableEq, Repr

/-- One command applied to the chain. -/
def step (memory : List Block) : Cmd → List Block
  | Cmd.rq process reqSize => (bestFit memory process reqSize).1
  | Cmd.rl process => (release memory process).1
  | Cmd.c => compaction memory

/-- The chain after `initialize(limit)` and the commands `cmds`, in order. -/
def run (limit : Int) (cmds : List Cmd) : List Block :=
  cmds.foldl step (initMemory limit)

/-- The block `hole` of `bs = pre ++ hole :: post` is the best fit for a request of
`reqSize`: it is free and large enough, every free block before it that is large enough
is strictly larger, and every free block after it that is large enough is at least as
large. -/
def IsBestFit (reqSize : Int) (bs pre : List Block) (hole : Block) (post : List Block) :
    Prop :=
  bs = pre ++ hole :: post ∧ hole.id = -1 ∧ reqSize ≤ hole.size ∧
  (∀ b ∈ pre, b.id = -1 → reqSize ≤ b.size → hole.size < b.size) ∧
  (∀ b ∈ post, b.id = -1 → reqSize ≤ b.size → hole.size ≤ b.size)

/-- What the scan of `bestFit` knows about the nodes `l` it has passed. -/
def ScanInv (reqSize : Int) (l : List Block) : Option (Nat × Block) → Prop
  | none => ∀ b ∈ l, ¬ (b.id = -1 ∧ reqSize ≤ b.size)
  | some (j, h) => ∃ pre post, IsBestFit reqSize l pre h post ∧ pre.length = j

/-- The blocks lie one after the other from address `s` on. -/
def ContiguousFrom : Int → List Block → Prop
  | _, [] => True
  | s, b :: rest => b.start = s ∧ ContiguousFrom (s + b.size) rest

/-- The (owner, size) pairs of the owned blocks, in list order. -/
def ownedPairs (bs : List Block) : List (Int × Int) :=
  (bs.filter (fun b => decide (b.id ≠ -1))).map (fun b => (b.id, b.size))

/-- The sum of the sizes of the free blocks. -/
def freeSize (bs : List Block) : Int :=
  totalSize (bs.filter (fun b => decide (b.id = -1)))

/-- The description of release in the specification, first half: the block owned by
`process` is relabelled free. -/
def relabelFree (process : Int) (bs : List Block) : List Block :=
  bs.map (fun b => if b.id = process then { b with id := -1 } else b)

/-- The description of release in the specification, second half: every maximal run of
consecutive free blocks is collapsed into a single free block whose start is the start of
the first block of the run and whose size is the sum of the sizes of the run. -/
def collapseFreeRuns : List Block → List Block
  | [] => []
  | b :: rest =>
    if b.id = -1 then
      { id := -1, start := b.start,
        size := b.size + totalSize (rest.takeWhile (fun c => decide (c.id = -1))) } ::
        collapseFreeRuns (rest.dropWhile (fun c => decide (c.id = -1)))
    else
      b :: collapseFreeRuns rest
termination_by l => l.length
decreasing_by
  · simp only [List.length_cons]
    exact Nat.lt_succ_of_le (List.Sublist.length_le (List.dropWhile_sublist _))
  · simp

/-- The invariants I1 to I4 in the form the proofs use: the region is not empty, its
blocks lie one after the other from address 0, their sizes add up to `limit`, and I2, I3
and I4 hold. -/
def WellFormed (limit : Int) (bs : List Block) : Prop :=
  bs ≠ [] ∧ ContiguousFrom 0 bs ∧ totalSize bs = limit ∧ I2 bs ∧ I3 bs ∧ I4 bs

/-- The command is one the front end issues: `parseRequest` calls `bestFit` only with a
positive size. -/
def Cmd.positive : Cmd → Prop
  | Cmd.rq _ reqSize => 0 < reqSize
  | Cmd.rl _ => True
  | Cmd.c => True

instance (cmd : Cmd) : Decidable cmd.positive :=
  match cmd with
  | Cmd.rq _ reqSize => inferInstanceAs (Decidable (0 < reqSize))
  | Cmd.rl _ => isTrue trivial
  | Cmd.c => isTrue trivial

/-- The end of an address range as `statusReport` prints it: the text `END` or a number. -/
inductive EndField where
  | endMarker
  | address (e : Int)
deriving DecidableEq, Repr

/-- The owner as `statusReport` prints it: `Free` or `Process P<id>`. -/
inductive OwnerField where
  | free
  | process (id : Int)
deriving DecidableEq, Repr

/-- One line printed by `statusReport`. -/
structure ReportLine where
  start : Int
  stop : EndField
  owner : OwnerField
deriving DecidableEq, Repr

/-- The loop of `statusReport`: `limit` is `memory->size`, the list holds the node `nav`
and the nodes after it. -/
def statusReportFrom (limit : Int) : List Block → List ReportLine
  | [] => []
  | nav :: rest =>
    { start := nav.start,
      stop := if nav.start + nav.size - 1 = limit - 1 then EndField.endMarker
        else EndField.address (nav.start + nav.size - 1),
      owner := if nav.id = -1 then OwnerField.free else OwnerField.process nav.id } ::
      statusReportFrom limit rest

/-- The function `statusReport` of the source: the chain after the call and the lines
printed. -/
def statusReport (memory : List Block) : List Block × List ReportLine :=
  match memory with
  | [] => ([], [])
  | head :: rest => (memory, statusReportFrom head.size rest)

/-- The blocks with their starts recomputed as the running sum of the sizes, from `s`. -/
def restart : Int → List Block → List Block
  | _, [] => []
  | s, b :: rest => { b with start := s } :: restart (s + b.size) rest

/-- The reference for one call of `compaction`: the first free block is removed and
appended as the last block, the other blocks keep their order, owners and sizes, the
starts are recomputed from the first moved position on as the running sum of the sizes,
and the runs of free blocks are collapsed.  A region without a free block is returned
as it is. -/
def compactionReference (bs : List Block) : List Block :=
  match bs.dropWhile (fun b => decide (b.id ≠ -1)) with
  | [] => bs
  | f :: rest =>
    collapseFreeRuns (bs.takeWhile (fun b => decide (b.id ≠ -1)) ++
      restart (totalSize (bs.takeWhile (fun b => decide (b.id ≠ -1)))) (rest ++ [f]))

/-- The blocks with the given (owner, size) pairs, one after the other from address `s`. -/
def packedFrom : Int → List (Int × Int) → List Block
  | _, [] => []
  | s, p :: rest => { id := p.1, start := s, size := p.2 } :: packedFrom (s + p.2) rest

/-- The fully compacted form of a region: its owned blocks in their order and with their
sizes, packed from address 0, followed, when there is free space, by one free block that
holds all of it. -/
def fullyCompacted (bs : List Block) : List Block :=
  packedFrom 0 (ownedPairs bs) ++
    (if freeSize bs = 0 then []
     else [{ id := -1, start := ((ownedPairs bs).map Prod.snd).sum, size := freeSize bs }])

/-- The number of free blocks. -/
def freeCount (bs : List Block) : Nat :=
  (bs.filter (fun b => decide (b.id = -1))).length

/-- The number of free blocks that are not the last block. -/
def interiorFree (bs : List Block) : Nat := freeCount bs.dropLast

/-! ## The scan of `bestFit` -/

theorem bestFitScan_eq_none_iff (process reqSize : Int) (l : List Block) (i : Nat)
    (best : Option (Nat × Block)) :
    bestFitScan process reqSize l i best = none ↔ ∃ b ∈ l, b.id = process := by
  induction l generalizing i best with
  | nil => simp [bestFitScan]
  | cons nav rest ih =>
    by_cases h : nav.id = process
    · simp [bestFitScan, h]
    · cases best with
      | none =>
        by_cases hc : nav.id = -1 ∧ nav.size ≥ reqSize
        · simp only [bestFitScan, if_neg h, if_pos hc, ih]
          simp [h]
        · simp only [bestFitScan, if_neg h, if_neg hc, ih]
          simp [h]
      | some jb =>
        obtain ⟨j, b⟩ := jb
        by_cases hc : nav.id = -1 ∧ nav.size ≥ reqSize ∧ nav.size < b.size
        · simp only [bestFitScan, if_neg h, if_pos hc, ih]
          simp [h]
        · simp only [bestFitScan, if_neg h, if_neg hc, ih]
          simp [h]

theorem bestFitScan_inv (process reqSize : Int) (rest : List Block) :
    ∀ (done : List Block) (best : Option (Nat × Block)),
      ScanInv reqSize done best → (∀ b ∈ rest, b.id ≠ process) →
      ∃ r, bestFitScan process reqSize rest done.length best = some r ∧
        ScanInv reqSize (done ++ rest) r := by
  induction rest with
  | nil =>
    intro done best hinv _
    exact ⟨best, by simp [bestFitScan], by simpa using hinv⟩
  | cons nav rest ih =>
    intro done best hinv hno
    have hnav : nav.id ≠ process := hno nav (List.mem_cons_self _ _)
    have hrest : ∀ b ∈ rest, b.id ≠ process := fun b hb => hno b (List.mem_cons_of_mem _ hb)
    have hlen : (done ++ [nav]).length = done.length + 1 := by simp
    have happ : done ++ [nav] ++ rest = done ++ nav :: rest := by simp
    cases best with
    | none =>
      by_cases hc : nav.id = -1 ∧ nav.size ≥ reqSize
      · have hstep : ScanInv reqSize (done ++ [nav]) (some (done.length, nav)) := by
          refine ⟨done, [], ⟨rfl, hc.1, hc.2, ?_, ?_⟩, rfl⟩
          · intro b hb hf ha
            exact absurd ⟨hf, ha⟩ (hinv b hb)
          · intro b hb
            simp at hb
        obtain ⟨r, hr, hi⟩ := ih (done ++ [nav]) _ hstep hrest
        refine ⟨r, ?_, ?_⟩
        · simp only [bestFitScan, if_neg hnav, if_pos hc]
          rw [← hlen]; exact hr
        · rw [← happ]; exact hi
      · have hstep : ScanInv reqSize (done ++ [nav]) none := by
          intro b hb
          rcases List.mem_append.1 hb with hb | hb
          · exact hinv b hb
          · simp at hb; subst hb; exact hc
        obtain ⟨r, hr, hi⟩ := ih (done ++ [nav]) _ hstep hrest
        refine ⟨r, ?_, ?_⟩
        · simp only [bestFitScan, if_neg hnav, if_neg hc]
          rw [← hlen]; exact hr
        · rw [← happ]; exact hi
    | some jb =>
      obtain ⟨j, h⟩ := jb
      obtain ⟨pre, post, ⟨hdone, hfree, hfit, hpre, hpost⟩, hj⟩ := hinv
      by_cases hc : nav.id = -1 ∧ nav.size ≥ reqSize ∧ nav.size < h.size
      · have hstep : ScanInv reqSize (done ++ [nav]) (some (done.length, nav)) := by
          refine ⟨done, [], ⟨rfl, hc.1, hc.2.1, ?_, ?_⟩, rfl⟩
          · intro b hb hf ha
            rw [hdone] at hb
            rcases List.mem_append.1 hb with hb | hb
            · have := hpre b hb hf ha; omega
            · rcases List.mem_cons.1 hb with hb | hb
              · subst hb; exact hc.2.2
              · have := hpost b hb hf ha; omega
          · intro b hb
            simp at hb
        obtain ⟨r, hr, hi⟩ := ih (done ++ [nav]) _ hstep hrest
        refine ⟨r, ?_, ?_⟩
        · simp only [bestFitScan, if_neg hnav, if_pos hc]
          rw [← hlen]; exact hr
        · rw [← happ]; exact hi
      · have hstep : ScanInv reqSize (done ++ [nav]) (some (j, h)) := by
          refine ⟨pre, post ++ [nav], ⟨by simp [hdone], hfree, hfit, hpre, ?_⟩, hj⟩
          intro b hb hf ha
          rcases List.mem_append.1 hb with hb | hb
          · exact hpost b hb hf ha
          · simp at hb; subst hb
            by_contra hlt
            exact hc ⟨hf, ha, by omega⟩
        obtain ⟨r, hr, hi⟩ := ih (done ++ [nav]) _ hstep hrest
        refine ⟨r, ?_, ?_⟩
        · simp only [bestFitScan, if_neg hnav, if_neg hc]
          rw [← hlen]; exact hr
        · rw [← happ]; exact hi

/-! ## The three outcomes of `bestFit` on a region -/

theorem bestFit_exists (limit : Int) (bs : List Block) (process reqSize : Int)
    (h : process = -2 ∨ owns process bs) :
    bestFit (region limit bs) process reqSize = (region limit bs, AllocOutcome.alreadyExists) := by
  have hscan : bestFitScan process reqSize (region limit bs) 0 none = none := by
    rw [bestFitScan_eq_none_iff]
    rcases h with h | ⟨b, hb, hid⟩
    · exact ⟨newBlock (-2) (-2) limit, List.mem_cons_self _ _, by simp [newBlock, h]⟩
    · exact ⟨b, List.mem_cons_of_mem _ hb, hid⟩
  simp only [bestFit, hscan]

theorem bestFitScan_region (limit : Int) (bs : List Block) (process reqSize : Int)
    (hp : process ≠ -2) (hno : ¬ owns process bs) :
    ∃ r, bestFitScan process reqSize (region limit bs) 0 none = some r ∧
      ScanInv reqSize (region limit bs) r := by
  have hall : ∀ b ∈ region limit bs, b.id ≠ process := by
    intro b hb
    rcases List.mem_cons.1 hb with hb | hb
    · subst hb; simpa [newBlock] using Ne.symm hp
    · exact fun hid => hno ⟨b, hb, hid⟩
  have hnil : ScanInv reqSize [] none := by
    intro b hb
    simp at hb
  simpa using bestFitScan_inv process reqSize (region limit bs) [] none hnil hall

theorem bestFit_insufficient (limit : Int) (bs : List Block) (process reqSize : Int)
    (hp : process ≠ -2) (hno : ¬ owns process bs)
    (hnone : ∀ b ∈ bs, ¬ (b.id = -1 ∧ reqSize ≤ b.size)) :
    bestFit (region limit bs) process reqSize =
      (region limit bs, AllocOutcome.insufficientMemory) := by
  obtain ⟨r, hr, hinv⟩ := bestFitScan_region limit bs process reqSize hp hno
  cases r with
  | none => simp only [bestFit, hr]
  | some jb =>
    obtain ⟨j, h⟩ := jb
    obtain ⟨pre, post, ⟨hl, hfree, hfit, _, _⟩, _⟩ := hinv
    exfalso
    have hmem : h ∈ region limit bs := by rw [hl]; simp
    rcases List.mem_cons.1 hmem with hm | hm
    · subst hm; simp [newBlock] at hfree
    · exact hnone h hm ⟨hfree, hfit⟩

theorem bestFit_allocated (limit : Int) (bs : List Block) (process reqSize : Int)
    (hp : process ≠ -2) (hno : ¬ owns process bs)
    (hex : ∃ b ∈ bs, b.id = -1 ∧ reqSize ≤ b.size) :
    ∃ pre hole post, IsBestFit reqSize bs pre hole post ∧
      bestFit (region limit bs) process reqSize =
        (region limit (pre ++ allocateIn hole process reqSize ++ post),
          AllocOutcome.allocated) := by
  obtain ⟨r, hr, hinv⟩ := bestFitScan_region limit bs process reqSize hp hno
  cases r with
  | none =>
    obtain ⟨b, hb, hc⟩ := hex
    exact absurd hc (hinv b (List.mem_cons_of_mem _ hb))
  | some jb =>
    obtain ⟨j, h⟩ := jb
    obtain ⟨pre, post, ⟨hl, hfree, hfit, hpre, hpost⟩, hj⟩ := hinv
    cases pre with
    | nil =>
      exfalso
      simp only [region, List.nil_append, List.cons.injEq] at hl
      rw [← hl.1] at hfree
      simp [newBlock] at hfree
    | cons d pre =>
      simp only [region, List.cons_append, List.cons.injEq] at hl
      obtain ⟨hd, hbs⟩ := hl
      refine ⟨pre, h, post, ⟨hbs, hfree, hfit, ?_, hpost⟩, ?_⟩
      · exact fun b hb => hpre b (List.mem_cons_of_mem _ hb)
      · have htake : (region limit bs).take j = region limit pre := by
          subst hj; subst hbs; subst hd
          simp [region]
        have hdrop : (region limit bs).drop (j + 1) = post := by
          subst hj; subst hbs; subst hd
          simp [region]
        simp only [bestFit, hr, htake, hdrop]
        simp [region]

/-! ## Consecutive blocks -/

theorem adjacent_iff_chain' (R : Block → Block → Prop) (l : List Block) :
    Adjacent R l ↔ List.Chain' R l := by
  induction l with
  | nil => simp [Adjacent]
  | cons a l ih =>
    cases l with
    | nil => simp [Adjacent]
    | cons b l => simp only [Adjacent, List.chain'_cons, ih]

theorem Adjacent.of_append_right {R : Block → Block → Prop} {l₁ l₂ : List Block}
    (h : Adjacent R (l₁ ++ l₂)) : Adjacent R l₂ := by
  rw [adjacent_iff_chain'] at h ⊢
  exact h.right_of_append

theorem Adjacent.of_append_left {R : Block → Block → Prop} {l₁ l₂ : List Block}
    (h : Adjacent R (l₁ ++ l₂)) : Adjacent R l₁ := by
  rw [adjacent_iff_chain'] at h ⊢
  exact h.left_of_append

theorem start_lt_of_contiguous (h : Block) (post : List Block)
    (hc : Adjacent (fun a b => b.start = a.start + a.size) (h :: post))
    (hpos : ∀ b ∈ h :: post, 0 < b.size) : ∀ b ∈ post, h.start < b.start := by
  induction post generalizing h with
  | nil => intro b hb; simp at hb
  | cons c rest ih =>
    intro b hb
    obtain ⟨hstart, hrest⟩ := hc
    have hh : 0 < h.size := hpos h (List.mem_cons_self _ _)
    rcases List.mem_cons.1 hb with hb | hb
    · subst hb; omega
    · have := ih c hrest (fun x hx => hpos x (List.mem_cons_of_mem _ hx)) b hb
      omega

/-! ## Owners -/

theorem mem_ownerIds (process : Int) (l : List Block) :
    process ∈ ownerIds l ↔ process ≠ -1 ∧ owns process l := by
  simp only [ownerIds, owns, List.mem_map, List.mem_filter, decide_eq_true_eq]
  constructor
  · rintro ⟨b, ⟨hb, hne⟩, hid⟩
    exact ⟨by rw [← hid]; exact hne, b, hb, hid⟩
  · rintro ⟨hne, b, hb, hid⟩
    exact ⟨b, ⟨hb, by rw [hid]; exact hne⟩, hid⟩

/-! ## Best-fit selection -/

/-- C1, on the code: a request made under the id `-2` of the dummy head node, or under the
id `-1` that marks free blocks, is rejected as already existing although no owned block
carries that id and a free block is large enough. -/
theorem bestFit_sentinel_ids_not_allocated :
    ((-2 : Int) ∉ ownerIds [⟨-1, 0, 100⟩] ∧ ¬ owns (-2) [⟨-1, 0, 100⟩] ∧
      (∃ b ∈ [(⟨-1, 0, 100⟩ : Block)], b.id = -1 ∧ (10 : Int) ≤ b.size) ∧
      bestFit (region 100 [⟨-1, 0, 100⟩]) (-2) 10 =
        (region 100 [⟨-1, 0, 100⟩], AllocOutcome.alreadyExists)) ∧
    ((-1 : Int) ∉ ownerIds [⟨-1, 0, 100⟩] ∧
      (∃ b ∈ [(⟨-1, 0, 100⟩ : Block)], b.id = -1 ∧ (10 : Int) ≤ b.size) ∧
      initMemory 100 = region 100 [⟨-1, 0, 100⟩] ∧
      bestFit (region 100 [⟨-1, 0, 100⟩]) (-1) 10 =
        (region 100 [⟨-1, 0, 100⟩], AllocOutcome.alreadyExists)) := by
  decide

/-- C1 (amended): for every region and every request `(process, reqSize)` whose process
id is neither the marker `-1` of free blocks nor the head marker `-2`, where the process
owns no block (no owned block carries its id) and some free block has size at least
`reqSize`, `bestFit` allocates in a free block `hole` whose size is the minimum among the
free blocks of size at least `reqSize`; every such block before `hole` in list order is
strictly larger, so `hole` is the first of minimum size, and in a region satisfying I1
and I2 it is the one of minimum size with the lowest start. -/
theorem bestFit_selects_smallest_adequate_hole (limit : Int) (bs : List Block)
    (process reqSize : Int) (hfree : process ≠ -1) (hhead : process ≠ -2)
    (hno : process ∉ ownerIds bs) (hex : ∃ b ∈ bs, b.id = -1 ∧ reqSize ≤ b.size) :
    ∃ pre hole post, bs = pre ++ hole :: post ∧ hole.id = -1 ∧ reqSize ≤ hole.size ∧
      (∀ b ∈ bs, b.id = -1 → reqSize ≤ b.size → hole.size ≤ b.size) ∧
      (∀ b ∈ pre, b.id = -1 → reqSize ≤ b.size → hole.size < b.size) ∧
      (I1 limit bs → I2 bs →
        ∀ b ∈ bs, b.id = -1 → reqSize ≤ b.size → b.size = hole.size → hole.start ≤ b.start) ∧
      bestFit (region limit bs) process reqSize =
        (region limit (pre ++ allocateIn hole process reqSize ++ post),
          AllocOutcome.allocated) := by
  have hno' : ¬ owns process bs := fun h => hno ((mem_ownerIds process bs).2 ⟨hfree, h⟩)
  obtain ⟨pre, hole, post, ⟨hbs, hfree', hfit, hpre, hpost⟩, hres⟩ :=
    bestFit_allocated limit bs process reqSize hhead hno' hex
  refine ⟨pre, hole, post, hbs, hfree', hfit, ?_, hpre, ?_, hres⟩
  · intro b hb hf ha
    rw [hbs] at hb
    rcases List.mem_append.1 hb with hb | hb
    · exact le_of_lt (hpre b hb hf ha)
    · rcases List.mem_cons.1 hb with hb | hb
      · subst hb; exact le_refl _
      · exact hpost b hb hf ha
  · intro h1 h2 b hb hf ha hsz
    rw [hbs] at hb
    rcases List.mem_append.1 hb with hb | hb
    · have := hpre b hb hf ha; omega
    · rcases List.mem_cons.1 hb with hb | hb
      · subst hb; exact le_refl _
      · have hc : Adjacent (fun a b => b.start = a.start + a.size) (hole :: post) := by
          have := h1.2.1
          rw [hbs] at this
          exact this.of_append_right
        have hpos : ∀ x ∈ hole :: post, 0 < x.size := by
          intro x hx
          exact h2 x (by rw [hbs]; exact List.mem_append_right _ hx)
        exact le_of_lt (start_lt_of_contiguous hole post hc hpos b hb)

/-- C1, at a concrete region: two free holes of size 50 and one of size 80; a request of
40 for process 3 is placed in the first hole of size 50. -/
theorem bestFit_selects_smallest_adequate_hole_witness :
    (3 : Int) ≠ -1 ∧ (3 : Int) ≠ -2 ∧
    (3 : Int) ∉ ownerIds
      [⟨-1, 0, 80⟩, ⟨1, 80, 20⟩, ⟨-1, 100, 50⟩, ⟨2, 150, 10⟩, ⟨-1, 160, 50⟩] ∧
    (∃ pre hole post,
      [⟨-1, 0, 80⟩, ⟨1, 80, 20⟩, ⟨-1, 100, 50⟩, ⟨2, 150, 10⟩, ⟨-1, 160, 50⟩]
        = pre ++ hole :: post ∧ hole.id = -1 ∧ 40 ≤ hole.size ∧
      (∀ b ∈ [(⟨-1, 0, 80⟩ : Block), ⟨1, 80, 20⟩, ⟨-1, 100, 50⟩, ⟨2, 150, 10⟩, ⟨-1, 160, 50⟩],
        b.id = -1 → 40 ≤ b.size → hole.size ≤ b.size) ∧
      (∀ b ∈ pre, b.id = -1 → 40 ≤ b.size → hole.size < b.size) ∧
      (I1 210 [⟨-1, 0, 80⟩, ⟨1, 80, 20⟩, ⟨-1, 100, 50⟩, ⟨2, 150, 10⟩, ⟨-1, 160, 50⟩] →
        I2 [⟨-1, 0, 80⟩, ⟨1, 80, 20⟩, ⟨-1, 100, 50⟩, ⟨2, 150, 10⟩, ⟨-1, 160, 50⟩] →
        ∀ b ∈ [(⟨-1, 0, 80⟩ : Block), ⟨1, 80, 20⟩, ⟨-1, 100, 50⟩, ⟨2, 150, 10⟩, ⟨-1, 160, 50⟩],
          b.id = -1 → 40 ≤ b.size → b.size = hole.size → hole.start ≤ b.start) ∧
      bestFit (region 210
          [⟨-1, 0, 80⟩, ⟨1, 80, 20⟩, ⟨-1, 100, 50⟩, ⟨2, 150, 10⟩, ⟨-1, 160, 50⟩]) 3 40 =
        (region 210 (pre ++ allocateIn hole 3 40 ++ post), AllocOutcome.allocated)) ∧
    bestFit (region 210
        [⟨-1, 0, 80⟩, ⟨1, 80, 20⟩, ⟨-1, 100, 50⟩, ⟨2, 150, 10⟩, ⟨-1, 160, 50⟩]) 3 40 =
      (region 210 [⟨-1, 0, 80⟩, ⟨1, 80, 20⟩, ⟨3, 100, 40⟩, ⟨-1, 140, 10⟩, ⟨2, 150, 10⟩,
        ⟨-1, 160, 50⟩], AllocOutcome.allocated) :=
  ⟨by decide, by decide, by decide,
    bestFit_selects_smallest_adequate_hole 210
      [⟨-1, 0, 80⟩, ⟨1, 80, 20⟩, ⟨-1, 100, 50⟩, ⟨2, 150, 10⟩, ⟨-1, 160, 50⟩] 3 40
      (by decide) (by decide) (by decide) ⟨⟨-1, 0, 80⟩, by decide, by decide⟩,
    by decide⟩

/-! ## The shape of a successful allocation -/

theorem bestFit_cases (limit : Int) (bs : List Block) (process reqSize : Int) :
    bestFit (region limit bs) process reqSize =
        (region limit bs, AllocOutcome.alreadyExists) ∧ (process = -2 ∨ owns process bs) ∨
    bestFit (region limit bs) process reqSize =
        (region limit bs, AllocOutcome.insufficientMemory) ∧ process ≠ -2 ∧
        ¬ owns process bs ∧ (∀ b ∈ bs, ¬ (b.id = -1 ∧ reqSize ≤ b.size)) ∨
    ∃ pre hole post, IsBestFit reqSize bs pre hole post ∧ process ≠ -2 ∧ ¬ owns process bs ∧
      bestFit (region limit bs) process reqSize =
        (region limit (pre ++ allocateIn hole process reqSize ++ post),
          AllocOutcome.allocated) := by
  by_cases h : process = -2 ∨ owns process bs
  · exact Or.inl ⟨bestFit_exists limit bs process reqSize h, h⟩
  · have hp : process ≠ -2 := fun hp => h (Or.inl hp)
    have hno : ¬ owns process bs := fun ho => h (Or.inr ho)
    by_cases hex : ∃ b ∈ bs, b.id = -1 ∧ reqSize ≤ b.size
    · obtain ⟨pre, hole, post, hbest, hres⟩ :=
        bestFit_allocated limit bs process reqSize hp hno hex
      exact Or.inr (Or.inr ⟨pre, hole, post, hbest, hp, hno, hres⟩)
    · have hnone : ∀ b ∈ bs, ¬ (b.id = -1 ∧ reqSize ≤ b.size) :=
        fun b hb hc => hex ⟨b, hb, hc⟩
      exact Or.inr (Or.inl
        ⟨bestFit_insufficient limit bs process reqSize hp hno hnone, hp, hno, hnone⟩)

theorem filter_id_eq_nil (process : Int) (l : List Block) (h : ∀ b ∈ l, b.id ≠ process) :
    l.filter (fun b => decide (b.id = process)) = [] := by
  rw [List.filter_eq_nil_iff]
  intro b hb
  simpa using h b hb

/-- C2: whenever `bestFit` succeeds for `(process, reqSize)`, it has chosen a best-fit hole
`hole` of the region `pre ++ hole :: post`; afterwards exactly one block is owned by
`process`, with size `reqSize` and start `hole.start`, in the hole's place.  If the hole's
size equals the request the other blocks follow directly and the number of blocks is
unchanged; otherwise the owned block is immediately followed by one new free block with
start `hole.start + reqSize` and size `hole.size - reqSize`, and the number of blocks grows
by one. -/
theorem bestFit_success_shape (limit : Int) (bs : List Block) (process reqSize : Int)
    (hok : (bestFit (region limit bs) process reqSize).2 = AllocOutcome.allocated) :
    ∃ pre hole post, IsBestFit reqSize bs pre hole post ∧
      ((blocks (bestFit (region limit bs) process reqSize).1).filter
        (fun b => decide (b.id = process))) = [⟨process, hole.start, reqSize⟩] ∧
      (hole.size = reqSize →
        (bestFit (region limit bs) process reqSize).1
          = region limit (pre ++ ⟨process, hole.start, reqSize⟩ :: post) ∧
        (blocks (bestFit (region limit bs) process reqSize).1).length = bs.length) ∧
      (hole.size ≠ reqSize →
        (bestFit (region limit bs) process reqSize).1
          = region limit (pre ++ ⟨process, hole.start, reqSize⟩ ::
              ⟨-1, hole.start + reqSize, hole.size - reqSize⟩ :: post) ∧
        (blocks (bestFit (region limit bs) process reqSize).1).length = bs.length + 1) := by
  rcases bestFit_cases limit bs process reqSize with ⟨h, _⟩ | ⟨h, _⟩ | h
  · rw [h] at hok; cases hok
  · rw [h] at hok; cases hok
  · obtain ⟨pre, hole, post, hbest, hp, hno, hres⟩ := h
    obtain ⟨hbs, hfree, hfit, hpre, hpost⟩ := hbest
    have hne : ∀ b ∈ bs, b.id ≠ process := fun b hb hid => hno ⟨b, hb, hid⟩
    have hpre' : ∀ b ∈ pre, b.id ≠ process :=
      fun b hb => hne b (by rw [hbs]; exact List.mem_append_left _ hb)
    have hpost' : ∀ b ∈ post, b.id ≠ process :=
      fun b hb => hne b (by rw [hbs]; simp [hb])
    have hfp : (-1 : Int) ≠ process := by
      have := hne hole (by rw [hbs]; simp)
      rwa [hfree] at this
    refine ⟨pre, hole, post, ⟨hbs, hfree, hfit, hpre, hpost⟩, ?_, ?_, ?_⟩
    · rw [hres]
      by_cases hsz : reqSize = hole.size
      · simp [blocks, region, allocateIn, hsz, List.filter_append, List.filter_cons,
          filter_id_eq_nil process pre hpre', filter_id_eq_nil process post hpost']
      · simp [blocks, region, allocateIn, hsz, newBlock, List.filter_append, List.filter_cons,
          filter_id_eq_nil process pre hpre', filter_id_eq_nil process post hpost', hfp]
    · intro hsz
      rw [hres]
      subst hbs
      simp [blocks, region, allocateIn, hsz]
    · intro hsz
      rw [hres]
      subst hbs
      have hsz' : ¬ reqSize = hole.size := fun h => hsz h.symm
      simp [blocks, region, allocateIn, hsz', newBlock]
      omega

/-- C2 at a concrete region: a request of 600 for process 1 in a single free block of size
1000 splits it into the owned block at 0 and a free block of 400 at 600. -/
theorem bestFit_success_shape_witness :
    (bestFit (region 1000 [⟨-1, 0, 1000⟩]) 1 600).2 = AllocOutcome.allocated ∧
    ∃ pre hole post, IsBestFit 600 [⟨-1, 0, 1000⟩] pre hole post ∧
      ((blocks (bestFit (region 1000 [⟨-1, 0, 1000⟩]) 1 600).1).filter
        (fun b => decide (b.id = 1))) = [⟨1, hole.start, 600⟩] ∧
      (hole.size = 600 →
        (bestFit (region 1000 [⟨-1, 0, 1000⟩]) 1 600).1
          = region 1000 (pre ++ ⟨1, hole.start, 600⟩ :: post) ∧
        (blocks (bestFit (region 1000 [⟨-1, 0, 1000⟩]) 1 600).1).length
          = [(⟨-1, 0, 1000⟩ : Block)].length) ∧
      (hole.size ≠ 600 →
        (bestFit (region 1000 [⟨-1, 0, 1000⟩]) 1 600).1
          = region 1000 (pre ++ ⟨1, hole.start, 600⟩ ::
              ⟨-1, hole.start + 600, hole.size - 600⟩ :: post) ∧
        (blocks (bestFit (region 1000 [⟨-1, 0, 1000⟩]) 1 600).1).length
          = [(⟨-1, 0, 1000⟩ : Block)].length + 1) :=
  ⟨by decide, bestFit_success_shape 1000 [⟨-1, 0, 1000⟩] 1 600 (by decide)⟩

/-! ## `mergeFree` -/

theorem totalSize_nil : totalSize [] = 0 := rfl

theorem totalSize_cons (b : Block) (l : List Block) :
    totalSize (b :: l) = b.size + totalSize l := by
  simp [totalSize]

theorem totalSize_append (l₁ l₂ : List Block) :
    totalSize (l₁ ++ l₂) = totalSize l₁ + totalSize l₂ := by
  simp [totalSize]

theorem mergeFreeFrom_of_owned (nav : Block) (rest : List Block) (h : nav.id ≠ -1) :
    mergeFreeFrom nav rest = nav :: mergeFree rest := by
  cases rest with
  | nil => rfl
  | cons n rest =>
    have hc : ¬ (nav.id = -1 ∧ n.id = -1) := fun hc => h hc.1
    simp only [mergeFreeFrom, if_neg hc, mergeFree]

theorem mergeFreeFrom_head (nav : Block) (rest : List Block) :
    ∃ nav' l, mergeFreeFrom nav rest = nav' :: l ∧ nav'.id = nav.id ∧
      nav'.start = nav.start := by
  induction rest generalizing nav with
  | nil => exact ⟨nav, [], rfl, rfl, rfl⟩
  | cons n rest ih =>
    by_cases hc : nav.id = -1 ∧ n.id = -1
    · obtain ⟨nav', l, hl, hid, hst⟩ := ih { nav with size := nav.size + n.size }
      exact ⟨nav', l, by simp only [mergeFreeFrom, if_pos hc, hl], hid, hst⟩
    · exact ⟨nav, mergeFreeFrom n rest, by simp only [mergeFreeFrom, if_neg hc], rfl, rfl⟩

theorem mergeFreeFrom_contiguous (nav : Block) (rest : List Block) (s : Int)
    (h : ContiguousFrom s (nav :: rest)) : ContiguousFrom s (mergeFreeFrom nav rest) := by
  induction rest generalizing nav s with
  | nil => simpa [mergeFreeFrom] using h
  | cons n rest ih =>
    obtain ⟨h1, h2, h3⟩ := h
    by_cases hc : nav.id = -1 ∧ n.id = -1
    · simp only [mergeFreeFrom, if_pos hc]
      apply ih
      refine ⟨h1, ?_⟩
      simpa [add_assoc] using h3
    · simp only [mergeFreeFrom, if_neg hc]
      exact ⟨h1, ih n _ ⟨h2, h3⟩⟩

theorem mergeFreeFrom_totalSize (nav : Block) (rest : List Block) :
    totalSize (mergeFreeFrom nav rest) = totalSize (nav :: rest) := by
  induction rest generalizing nav with
  | nil => rfl
  | cons n rest ih =>
    by_cases hc : nav.id = -1 ∧ n.id = -1
    · simp only [mergeFreeFrom, if_pos hc, ih, totalSize_cons]
      ring
    · simp only [mergeFreeFrom, if_neg hc, ih, totalSize_cons]

theorem mergeFreeFrom_pos (nav : Block) (rest : List Block)
    (h : ∀ b ∈ nav :: rest, 0 < b.size) : ∀ b ∈ mergeFreeFrom nav rest, 0 < b.size := by
  induction rest generalizing nav with
  | nil => simpa [mergeFreeFrom] using h
  | cons n rest ih =>
    have hnav : 0 < nav.size := h nav (by simp)
    have hn : 0 < n.size := h n (by simp)
    have hrest : ∀ b ∈ rest, 0 < b.size := fun b hb => h b (by simp [hb])
    by_cases hc : nav.id = -1 ∧ n.id = -1
    · simp only [mergeFreeFrom, if_pos hc]
      apply ih
      intro b hb
      rcases List.mem_cons.1 hb with hb | hb
      · subst hb; show 0 < nav.size + n.size; omega
      · exact hrest b hb
    · simp only [mergeFreeFrom, if_neg hc]
      intro b hb
      rcases List.mem_cons.1 hb with hb | hb
      · subst hb; exact hnav
      · exact ih n (fun x hx => h x (List.mem_cons_of_mem _ hx)) b hb

theorem mergeFreeFrom_I3 (nav : Block) (rest : List Block) :
    I3 (mergeFreeFrom nav rest) := by
  induction rest generalizing nav with
  | nil => simp [mergeFreeFrom, I3, Adjacent]
  | cons n rest ih =>
    by_cases hc : nav.id = -1 ∧ n.id = -1
    · simp only [mergeFreeFrom, if_pos hc]
      exact ih _
    · simp only [mergeFreeFrom, if_neg hc]
      obtain ⟨n', l, hl, hid, _⟩ := mergeFreeFrom_head n rest
      have := ih n
      rw [hl] at this ⊢
      exact ⟨by show ¬ (nav.id = -1 ∧ n'.id = -1); rw [hid]; exact hc, this⟩

theorem mergeFreeFrom_of_I3 (nav : Block) (rest : List Block) (h : I3 (nav :: rest)) :
    mergeFreeFrom nav rest = nav :: rest := by
  induction rest generalizing nav with
  | nil => rfl
  | cons n rest ih =>
    obtain ⟨h1, h2⟩ := h
    simp only [mergeFreeFrom, if_neg h1, ih n h2]

theorem mergeFreeFrom_ownedPairs (nav : Block) (rest : List Block) :
    (mergeFreeFrom nav rest).filter (fun b => decide (b.id ≠ -1))
      = (nav :: rest).filter (fun b => decide (b.id ≠ -1)) := by
  induction rest generalizing nav with
  | nil => rfl
  | cons n rest ih =>
    by_cases hc : nav.id = -1 ∧ n.id = -1
    · simp only [mergeFreeFrom, if_pos hc, ih]
      simp [List.filter_cons, hc.1, hc.2]
    · simp only [mergeFreeFrom, if_neg hc]
      rw [List.filter_cons, ih n, List.filter_cons (x := nav)]

theorem mergeFreeFrom_freeSize (nav : Block) (rest : List Block) :
    freeSize (mergeFreeFrom nav rest) = freeSize (nav :: rest) := by
  induction rest generalizing nav with
  | nil => rfl
  | cons n rest ih =>
    by_cases hc : nav.id = -1 ∧ n.id = -1
    · simp only [mergeFreeFrom, if_pos hc, ih]
      simp [freeSize, List.filter_cons, hc.1, hc.2, totalSize_cons]
      ring
    · simp only [mergeFreeFrom, if_neg hc]
      have := ih n
      simp only [freeSize, List.filter_cons] at this ⊢
      split <;> simp [totalSize_cons, this]

theorem mergeFreeFrom_ids (nav : Block) (rest : List Block) :
    ∀ b ∈ mergeFreeFrom nav rest, ∃ c ∈ nav :: rest, c.id = b.id := by
  induction rest generalizing nav with
  | nil => intro b hb; exact ⟨b, hb, rfl⟩
  | cons n rest ih =>
    by_cases hc : nav.id = -1 ∧ n.id = -1
    · simp only [mergeFreeFrom, if_pos hc]
      intro b hb
      obtain ⟨c, hcm, hcid⟩ := ih _ b hb
      rcases List.mem_cons.1 hcm with h | h
      · exact ⟨nav, by simp, by rw [← hcid, h]⟩
      · exact ⟨c, by simp [h], hcid⟩
    · simp only [mergeFreeFrom, if_neg hc]
      intro b hb
      rcases List.mem_cons.1 hb with h | h
      · exact ⟨nav, by simp, by rw [h]⟩
      · obtain ⟨c, hcm, hcid⟩ := ih n b h
        exact ⟨c, List.mem_cons_of_mem _ hcm, hcid⟩

theorem ownedPairs_cons (b : Block) (l : List Block) :
    ownedPairs (b :: l) = if b.id = -1 then ownedPairs l else (b.id, b.size) :: ownedPairs l := by
  by_cases h : b.id = -1 <;> simp [ownedPairs, List.filter_cons, h]

theorem ownedPairs_append (l₁ l₂ : List Block) :
    ownedPairs (l₁ ++ l₂) = ownedPairs l₁ ++ ownedPairs l₂ := by
  simp [ownedPairs]

theorem freeSize_cons (b : Block) (l : List Block) :
    freeSize (b :: l) = if b.id = -1 then b.size + freeSize l else freeSize l := by
  by_cases h : b.id = -1 <;> simp [freeSize, List.filter_cons, h, totalSize_cons]

theorem ownerIds_eq (bs : List Block) : ownerIds bs = (ownedPairs bs).map Prod.fst := by
  simp [ownerIds, ownedPairs, List.map_map, Function.comp_def]

theorem mergeFreeFrom_ownedPairs' (nav : Block) (rest : List Block) :
    ownedPairs (mergeFreeFrom nav rest) = ownedPairs (nav :: rest) := by
  simp only [ownedPairs, mergeFreeFrom_ownedPairs]

/-! ## The swapping pass of `compaction` -/

theorem compactFrom_of_owned (nav : Block) (rest : List Block) (h : nav.id ≠ -1) :
    compactFrom nav rest = nav :: compactPass rest := by
  cases rest with
  | nil => rfl
  | cons n rest => simp only [compactFrom, if_neg h, compactPass]

theorem compactFrom_contiguous (nav : Block) (rest : List Block) (s : Int)
    (h : ContiguousFrom s (nav :: rest)) : ContiguousFrom s (compactFrom nav rest) := by
  induction rest generalizing nav s with
  | nil => simpa [compactFrom] using h
  | cons n rest ih =>
    obtain ⟨h1, h2, h3⟩ := h
    by_cases hc : nav.id = -1
    · simp only [compactFrom, if_pos hc]
      refine ⟨h1, ih _ _ ⟨?_, ?_⟩⟩
      · show nav.start + n.size = s + n.size
        rw [h1]
      · show ContiguousFrom (s + n.size + nav.size) rest
        have : s + n.size + nav.size = s + nav.size + n.size := by ring
        rw [this]; exact h3
    · simp only [compactFrom, if_neg hc]
      exact ⟨h1, ih n _ ⟨h2, h3⟩⟩

theorem compactFrom_totalSize (nav : Block) (rest : List Block) :
    totalSize (compactFrom nav rest) = totalSize (nav :: rest) := by
  induction rest generalizing nav with
  | nil => rfl
  | cons n rest ih =>
    by_cases hc : nav.id = -1
    · simp only [compactFrom, if_pos hc, ih, totalSize_cons]
      ring
    · simp only [compactFrom, if_neg hc, ih, totalSize_cons]

theorem compactFrom_pos (nav : Block) (rest : List Block)
    (h : ∀ b ∈ nav :: rest, 0 < b.size) : ∀ b ∈ compactFrom nav rest, 0 < b.size := by
  induction rest generalizing nav with
  | nil => simpa [compactFrom] using h
  | cons n rest ih =>
    have hnav : 0 < nav.size := h nav (by simp)
    have hn : 0 < n.size := h n (by simp)
    have hrest : ∀ b ∈ rest, 0 < b.size := fun b hb => h b (by simp [hb])
    by_cases hc : nav.id = -1
    · simp only [compactFrom, if_pos hc]
      intro b hb
      rcases List.mem_cons.1 hb with hb | hb
      · subst hb; exact hn
      · refine ih _ ?_ b hb
        intro x hx
        rcases List.mem_cons.1 hx with hx | hx
        · subst hx; exact hnav
        · exact hrest x hx
    · simp only [compactFrom, if_neg hc]
      intro b hb
      rcases List.mem_cons.1 hb with hb | hb
      · subst hb; exact hnav
      · exact ih n (fun x hx => h x (List.mem_cons_of_mem _ hx)) b hb

theorem compactFrom_ownedPairs (nav : Block) (rest : List Block) :
    ownedPairs (compactFrom nav rest) = ownedPairs (nav :: rest) := by
  induction rest generalizing nav with
  | nil => rfl
  | cons n rest ih =>
    by_cases hc : nav.id = -1
    · simp only [compactFrom, if_pos hc]
      rw [ownedPairs_cons, ih, ownedPairs_cons, ownedPairs_cons (b := nav),
        ownedPairs_cons (b := n)]
      simp [hc]
    · simp only [compactFrom, if_neg hc]
      rw [ownedPairs_cons, ih, ownedPairs_cons (b := nav)]

theorem compactFrom_freeSize (nav : Block) (rest : List Block) :
    freeSize (compactFrom nav rest) = freeSize (nav :: rest) := by
  induction rest generalizing nav with
  | nil => rfl
  | cons n rest ih =>
    by_cases hc : nav.id = -1
    · simp only [compactFrom, if_pos hc]
      rw [freeSize_cons, ih, freeSize_cons, freeSize_cons (b := nav), freeSize_cons (b := n)]
      by_cases hn : n.id = -1 <;> simp [hc, hn]
      ring
    · simp only [compactFrom, if_neg hc]
      rw [freeSize_cons, ih, freeSize_cons (b := nav)]

/-! ## I1 as contiguity from 0 and a total size -/

theorem contiguousFrom_iff (s : Int) (b : Block) (rest : List Block) :
    ContiguousFrom s (b :: rest) ↔
      b.start = s ∧ Adjacent (fun a b => b.start = a.start + a.size) (b :: rest) := by
  induction rest generalizing s b with
  | nil => simp [ContiguousFrom, Adjacent]
  | cons c rest ih =>
    have := ih (s + b.size) c
    simp only [ContiguousFrom] at this ⊢
    simp only [Adjacent, this]
    constructor
    · rintro ⟨h1, h2, h3⟩
      exact ⟨h1, by rw [h2, h1], h3⟩
    · rintro ⟨h1, h2, h3⟩
      exact ⟨h1, by rw [h2, h1], h3⟩

theorem contiguousFrom_getLast (s : Int) (l : List Block) (h : ContiguousFrom s l) :
    ∀ b ∈ l.getLast?, b.start + b.size = s + totalSize l := by
  induction l generalizing s with
  | nil => intro b hb; simp at hb
  | cons a l ih =>
    cases l with
    | nil =>
      intro b hb
      simp at hb
      subst hb
      simp [totalSize_cons, totalSize_nil, h.1]
    | cons c l =>
      intro b hb
      rw [List.getLast?_cons_cons] at hb
      have := ih (s + a.size) h.2 b hb
      rw [this, totalSize_cons (b := a)]
      ring

theorem contiguousFrom_append (s : Int) (l₁ l₂ : List Block) :
    ContiguousFrom s (l₁ ++ l₂) ↔
      ContiguousFrom s l₁ ∧ ContiguousFrom (s + totalSize l₁) l₂ := by
  induction l₁ generalizing s with
  | nil => simp [ContiguousFrom, totalSize_nil]
  | cons a l ih =>
    have := ih (s + a.size)
    rw [List.cons_append]
    simp only [ContiguousFrom, this, totalSize_cons, and_assoc, add_assoc]

theorem I1_cons_iff (limit : Int) (b : Block) (rest : List Block) :
    I1 limit (b :: rest) ↔
      ContiguousFrom 0 (b :: rest) ∧ totalSize (b :: rest) = limit := by
  rw [contiguousFrom_iff]
  constructor
  · rintro ⟨h1, h2, h3⟩
    have hb : b.start = 0 := h1 b (by simp)
    refine ⟨⟨hb, h2⟩, ?_⟩
    have hc : ContiguousFrom 0 (b :: rest) := (contiguousFrom_iff 0 b rest).2 ⟨hb, h2⟩
    obtain ⟨x, hx⟩ : ∃ x, (b :: rest).getLast? = some x :=
      ⟨(b :: rest).getLast (by simp), List.getLast?_eq_getLast _ _⟩
    have e1 := contiguousFrom_getLast 0 _ hc x hx
    have e2 := h3 x hx
    omega
  · rintro ⟨⟨hb, h2⟩, h3⟩
    refine ⟨?_, h2, ?_⟩
    · intro x hx
      simp at hx
      subst hx; exact hb
    · intro x hx
      have hc : ContiguousFrom 0 (b :: rest) := (contiguousFrom_iff 0 b rest).2 ⟨hb, h2⟩
      have e1 := contiguousFrom_getLast 0 _ hc x hx
      omega

theorem wellFormed_iff (limit : Int) (bs : List Block) :
    WellFormed limit bs ↔ bs ≠ [] ∧ I1 limit bs ∧ I2 bs ∧ I3 bs ∧ I4 bs := by
  cases bs with
  | nil => simp [WellFormed]
  | cons b rest =>
    simp only [WellFormed, I1_cons_iff, and_assoc]

/-! ## The operations on a region -/

theorem mergeFree_region (limit : Int) (bs : List Block) :
    mergeFree (region limit bs) = region limit (mergeFree bs) := by
  simp only [region, mergeFree]
  exact mergeFreeFrom_of_owned _ _ (by simp [newBlock])

theorem compactPass_region (limit : Int) (bs : List Block) :
    compactPass (region limit bs) = region limit (compactPass bs) := by
  simp only [region, compactPass]
  exact compactFrom_of_owned _ _ (by simp [newBlock])

theorem compaction_region (limit : Int) (bs : List Block) :
    compaction (region limit bs) = region limit (mergeFree (compactPass bs)) := by
  rw [compaction, compactPass_region, mergeFree_region]

theorem mergeFree_ne_nil (l : List Block) (h : l ≠ []) : mergeFree l ≠ [] := by
  cases l with
  | nil => exact absurd rfl h
  | cons a r =>
    obtain ⟨a', l', hl, _, _⟩ := mergeFreeFrom_head a r
    simp [mergeFree, hl]

theorem mergeFree_contiguous (s : Int) (l : List Block) (h : ContiguousFrom s l) :
    ContiguousFrom s (mergeFree l) := by
  cases l with
  | nil => exact h
  | cons a r => exact mergeFreeFrom_contiguous a r s h

theorem mergeFree_totalSize (l : List Block) : totalSize (mergeFree l) = totalSize l := by
  cases l with
  | nil => rfl
  | cons a r => exact mergeFreeFrom_totalSize a r

theorem mergeFree_pos (l : List Block) (h : I2 l) : I2 (mergeFree l) := by
  cases l with
  | nil => exact h
  | cons a r => exact mergeFreeFrom_pos a r h

theorem mergeFree_I3 (l : List Block) : I3 (mergeFree l) := by
  cases l with
  | nil => simp [mergeFree, I3, Adjacent]
  | cons a r => exact mergeFreeFrom_I3 a r

theorem mergeFree_of_I3 (l : List Block) (h : I3 l) : mergeFree l = l := by
  cases l with
  | nil => rfl
  | cons a r => exact mergeFreeFrom_of_I3 a r h

theorem mergeFree_ownedPairs (l : List Block) : ownedPairs (mergeFree l) = ownedPairs l := by
  cases l with
  | nil => rfl
  | cons a r => exact mergeFreeFrom_ownedPairs' a r

theorem mergeFree_freeSize (l : List Block) : freeSize (mergeFree l) = freeSize l := by
  cases l with
  | nil => rfl
  | cons a r => exact mergeFreeFrom_freeSize a r

theorem compactPass_ne_nil (l : List Block) (h : l ≠ []) : compactPass l ≠ [] := by
  cases l with
  | nil => exact absurd rfl h
  | cons a r =>
    cases r with
    | nil => simp [compactPass, compactFrom]
    | cons n r => by_cases hc : a.id = -1 <;> simp [compactPass, compactFrom, hc]

theorem compactPass_contiguous (s : Int) (l : List Block) (h : ContiguousFrom s l) :
    ContiguousFrom s (compactPass l) := by
  cases l with
  | nil => exact h
  | cons a r => exact compactFrom_contiguous a r s h

theorem compactPass_totalSize (l : List Block) : totalSize (compactPass l) = totalSize l := by
  cases l with
  | nil => rfl
  | cons a r => exact compactFrom_totalSize a r

theorem compactPass_pos (l : List Block) (h : I2 l) : I2 (compactPass l) := by
  cases l with
  | nil => exact h
  | cons a r => exact compactFrom_pos a r h

theorem compactPass_ownedPairs (l : List Block) :
    ownedPairs (compactPass l) = ownedPairs l := by
  cases l with
  | nil => rfl
  | cons a r => exact compactFrom_ownedPairs a r

theorem compactPass_freeSize (l : List Block) : freeSize (compactPass l) = freeSize l := by
  cases l with
  | nil => rfl
  | cons a r => exact compactFrom_freeSize a r

/-! ## Owned blocks separate runs of free blocks -/

theorem I3_cons_owned (o : Block) (l : List Block) (ho : o.id ≠ -1) :
    I3 (o :: l) ↔ I3 l := by
  cases l with
  | nil => simp [I3, Adjacent]
  | cons c r =>
    simp only [I3, Adjacent]
    exact ⟨fun h => h.2, fun h => ⟨fun hc => ho hc.1, h⟩⟩

theorem I3_append_owned (l₁ : List Block) (o : Block) (l₂ : List Block) (ho : o.id ≠ -1) :
    I3 (l₁ ++ o :: l₂) ↔ I3 l₁ ∧ I3 l₂ := by
  induction l₁ with
  | nil =>
    rw [List.nil_append, I3_cons_owned o l₂ ho]
    exact ⟨fun h => ⟨trivial, h⟩, fun h => h.2⟩
  | cons a l ih =>
    cases l with
    | nil =>
      have h1 : I3 ([a] ++ o :: l₂) ↔ I3 (o :: l₂) := by
        simp only [I3, List.cons_append, List.nil_append, Adjacent]
        exact ⟨fun h => h.2, fun h => ⟨fun hc => ho hc.2, h⟩⟩
      rw [h1, I3_cons_owned o l₂ ho]
      simp [I3, Adjacent]
    | cons b r =>
      have h1 : I3 (a :: b :: r ++ o :: l₂) ↔
          ¬ (a.id = -1 ∧ b.id = -1) ∧ I3 (b :: r ++ o :: l₂) := Iff.rfl
      have h2 : I3 (a :: b :: r) ↔ ¬ (a.id = -1 ∧ b.id = -1) ∧ I3 (b :: r) := by
        simp only [I3, Adjacent]
      rw [h1, ih, h2, and_assoc]

theorem I3_cons_congr (a a' : Block) (l : List Block) (h : a.id = a'.id) :
    I3 (a :: l) ↔ I3 (a' :: l) := by
  cases l with
  | nil => simp [I3, Adjacent]
  | cons c r => simp only [I3, Adjacent, h]

theorem I3_of_append_left {l₁ l₂ : List Block} (h : I3 (l₁ ++ l₂)) : I3 l₁ :=
  Adjacent.of_append_left h

theorem I3_of_append_right {l₁ l₂ : List Block} (h : I3 (l₁ ++ l₂)) : I3 l₂ :=
  Adjacent.of_append_right h

/-! ## `release` -/

theorem releaseFrom_eq_none_iff (process : Int) (nav : Block) (rest : List Block) :
    releaseFrom process nav rest = none ↔ ∀ b ∈ rest, b.id ≠ process := by
  induction rest generalizing nav with
  | nil => simp [releaseFrom]
  | cons n rest ih =>
    by_cases h : n.id = process
    · simp [releaseFrom, h]
    · simp only [releaseFrom, if_neg h, Option.map_eq_none', ih n]
      simp [h]

theorem releaseFrom_some (process : Int) (nav : Block) (rest l : List Block)
    (h : releaseFrom process nav rest = some l) :
    ∃ pre x post front back, rest = pre ++ x :: post ∧ x.id = process ∧
      (∀ b ∈ pre, b.id ≠ process) ∧ nav :: pre = front ++ [back] ∧
      l = front ++ mergeFreeFrom back ({ x with id := -1 } :: post) := by
  induction rest generalizing nav l with
  | nil => simp [releaseFrom] at h
  | cons n rest ih =>
    by_cases hn : n.id = process
    · simp only [releaseFrom, if_pos hn, Option.some.injEq] at h
      exact ⟨[], n, rest, [], nav, rfl, hn, by simp, rfl, by simp [← h]⟩
    · simp only [releaseFrom, if_neg hn, Option.map_eq_some'] at h
      obtain ⟨l0, hl0, hl⟩ := h
      obtain ⟨pre, x, post, front, back, hrest, hx, hpre, hfront, hl0'⟩ := ih n l0 hl0
      refine ⟨n :: pre, x, post, nav :: front, back, by simp [hrest], hx, ?_, ?_, ?_⟩
      · intro b hb
        rcases List.mem_cons.1 hb with hb | hb
        · subst hb; exact hn
        · exact hpre b hb
      · simp [hfront]
      · simp [← hl, hl0']

theorem append_mergeFreeFrom_eq (front : List Block) (back : Block) (tl : List Block)
    (h : I3 (front ++ [back])) :
    front ++ mergeFreeFrom back tl = mergeFree (front ++ back :: tl) := by
  induction front with
  | nil => rfl
  | cons a f ih =>
    cases f with
    | nil =>
      have hc : ¬ (a.id = -1 ∧ back.id = -1) := h.1
      simp only [List.cons_append, List.nil_append, mergeFree, mergeFreeFrom, if_neg hc]
    | cons c f =>
      have hc : ¬ (a.id = -1 ∧ c.id = -1) := h.1
      have h' : I3 (c :: f ++ [back]) := h.2
      have := ih h'
      simp only [List.cons_append, mergeFree, mergeFreeFrom, if_neg hc] at this ⊢
      rw [this]

theorem release_notFound (limit : Int) (bs : List Block) (process : Int)
    (h : ¬ owns process bs) :
    release (region limit bs) process = (region limit bs, ReleaseOutcome.notFound) := by
  have hn : releaseFrom process (newBlock (-2) (-2) limit) bs = none := by
    rw [releaseFrom_eq_none_iff]
    exact fun b hb hid => h ⟨b, hb, hid⟩
  simp only [release, region, hn]

theorem release_found (limit : Int) (bs : List Block) (process : Int)
    (h : owns process bs) :
    ∃ pre x post front back, bs = pre ++ x :: post ∧ x.id = process ∧
      (∀ b ∈ pre, b.id ≠ process) ∧ region limit pre = front ++ [back] ∧
      release (region limit bs) process =
        (front ++ mergeFreeFrom back ({ x with id := -1 } :: post),
          ReleaseOutcome.released) := by
  cases hr : releaseFrom process (newBlock (-2) (-2) limit) bs with
  | none =>
    rw [releaseFrom_eq_none_iff] at hr
    obtain ⟨b, hb, hid⟩ := h
    exact absurd hid (hr b hb)
  | some l =>
    obtain ⟨pre, x, post, front, back, hrest, hx, hpre, hfront, hl⟩ :=
      releaseFrom_some process _ bs l hr
    refine ⟨pre, x, post, front, back, hrest, hx, hpre, hfront, ?_⟩
    simp only [release, region, hr, hl]

theorem release_found_merge (limit : Int) (bs : List Block) (process : Int)
    (h3 : I3 bs) (h : owns process bs) :
    ∃ pre x post, bs = pre ++ x :: post ∧ x.id = process ∧
      (∀ b ∈ pre, b.id ≠ process) ∧
      release (region limit bs) process =
        (region limit (mergeFree (pre ++ { x with id := -1 } :: post)),
          ReleaseOutcome.released) := by
  obtain ⟨pre, x, post, front, back, hbs, hx, hpre, hfront, hres⟩ :=
    release_found limit bs process h
  refine ⟨pre, x, post, hbs, hx, hpre, ?_⟩
  have hI : I3 (front ++ [back]) := by
    rw [← hfront, region, I3_cons_owned _ _ (by simp [newBlock])]
    rw [hbs] at h3
    exact I3_of_append_left h3
  rw [hres, append_mergeFreeFrom_eq front back _ hI]
  have : front ++ back :: { x with id := -1 } :: post
      = region limit (pre ++ { x with id := -1 } :: post) := by
    have : front ++ back :: { x with id := -1 } :: post
        = (front ++ [back]) ++ { x with id := -1 } :: post := by simp
    rw [this, ← hfront]; rfl
  rw [this, mergeFree_region]

/-! ## The invariants are kept by every operation -/

theorem ownerIds_append (l₁ l₂ : List Block) :
    ownerIds (l₁ ++ l₂) = ownerIds l₁ ++ ownerIds l₂ := by
  simp [ownerIds]

theorem ownerIds_cons (b : Block) (l : List Block) :
    ownerIds (b :: l) = if b.id = -1 then ownerIds l else b.id :: ownerIds l := by
  by_cases h : b.id = -1 <;> simp [ownerIds, List.filter_cons, h]

theorem wellFormed_init (limit : Int) (h : 0 < limit) :
    WellFormed limit [newBlock (-1) 0 limit] := by
  refine ⟨by simp, ?_, ?_, ?_, ?_, ?_⟩
  · simp [ContiguousFrom, newBlock]
  · simp [totalSize, newBlock]
  · intro b hb
    simp at hb
    subst hb; exact h
  · simp [I3, Adjacent]
  · simp [I4, ownerIds, newBlock]

theorem wellFormed_compaction (limit : Int) (bs : List Block) (h : WellFormed limit bs) :
    WellFormed limit (mergeFree (compactPass bs)) := by
  obtain ⟨hne, hc, ht, h2, _, h4⟩ := h
  refine ⟨mergeFree_ne_nil _ (compactPass_ne_nil _ hne),
    mergeFree_contiguous _ _ (compactPass_contiguous _ _ hc), ?_,
    mergeFree_pos _ (compactPass_pos _ h2), mergeFree_I3 _, ?_⟩
  · rw [mergeFree_totalSize, compactPass_totalSize, ht]
  · rw [I4, ownerIds_eq, mergeFree_ownedPairs, compactPass_ownedPairs, ← ownerIds_eq]
    exact h4

theorem wellFormed_release (limit : Int) (bs : List Block) (process : Int)
    (h : WellFormed limit bs) :
    ∃ bs', (release (region limit bs) process).1 = region limit bs' ∧
      WellFormed limit bs' := by
  by_cases ho : owns process bs
  · obtain ⟨hne, hc, ht, h2, h3, h4⟩ := h
    obtain ⟨pre, x, post, hbs, hx, hpre, hres⟩ :=
      release_found_merge limit bs process h3 ho
    refine ⟨_, by rw [hres], mergeFree_ne_nil _ (by simp), ?_, ?_, ?_, mergeFree_I3 _, ?_⟩
    · apply mergeFree_contiguous
      rw [hbs] at hc
      rw [contiguousFrom_append] at hc ⊢
      exact hc
    · rw [mergeFree_totalSize, ← ht, hbs]
      simp [totalSize_append, totalSize_cons]
    · apply mergeFree_pos
      intro b hb
      rcases List.mem_append.1 hb with hb | hb
      · exact h2 b (by rw [hbs]; exact List.mem_append_left _ hb)
      · rcases List.mem_cons.1 hb with hb | hb
        · subst hb
          exact h2 x (by rw [hbs]; simp)
        · exact h2 b (by rw [hbs]; simp [hb])
    · rw [I4, ownerIds_eq, mergeFree_ownedPairs, ← ownerIds_eq]
      rw [I4, hbs] at h4
      refine List.Nodup.sublist ?_ h4
      rw [ownerIds_append, ownerIds_append, ownerIds_cons, ownerIds_cons]
      apply List.Sublist.append (List.Sublist.refl _)
      simp only [if_true]
      split
      · exact List.Sublist.refl _
      · exact List.sublist_cons_self _ _
  · exact ⟨bs, by rw [release_notFound limit bs process ho], h⟩

theorem wellFormed_bestFit (limit : Int) (bs : List Block) (process reqSize : Int)
    (hs : 0 < reqSize) (h : WellFormed limit bs) :
    ∃ bs', (bestFit (region limit bs) process reqSize).1 = region limit bs' ∧
      WellFormed limit bs' := by
  rcases bestFit_cases limit bs process reqSize with ⟨hres, _⟩ | ⟨hres, _⟩ | hres
  · exact ⟨bs, by rw [hres], h⟩
  · exact ⟨bs, by rw [hres], h⟩
  · obtain ⟨pre, hole, post, ⟨hbs, hfree, hfit, _, _⟩, _, hno, hres⟩ := hres
    obtain ⟨_, hc, ht, h2, h3, h4⟩ := h
    have hpm : (-1 : Int) ≠ process := by
      intro hp
      exact hno ⟨hole, by rw [hbs]; simp, by rw [hfree, hp]⟩
    have hpm' : ¬ process = -1 := fun hp => hpm hp.symm
    refine ⟨_, by rw [hres], ?_, ?_, ?_, ?_, ?_, ?_⟩
    · by_cases hsz : reqSize = hole.size <;> simp [allocateIn, hsz]
    · rw [hbs, contiguousFrom_append] at hc
      rw [List.append_assoc, contiguousFrom_append]
      refine ⟨hc.1, ?_⟩
      obtain ⟨hst, hpost⟩ := hc.2
      by_cases hsz : reqSize = hole.size
      · simp only [allocateIn, if_pos hsz, List.singleton_append]
        exact ⟨hst, hpost⟩
      · simp only [allocateIn, if_neg hsz, List.cons_append, List.nil_append]
        refine ⟨hst, ?_, ?_⟩
        · show hole.start + reqSize = _
          rw [hst]
        · show ContiguousFrom (_ + reqSize + (hole.size - reqSize)) post
          have : 0 + totalSize pre + reqSize + (hole.size - reqSize)
              = 0 + totalSize pre + hole.size := by ring
          rw [this]; exact hpost
    · rw [← ht, hbs]
      by_cases hsz : reqSize = hole.size
      · simp [allocateIn, hsz, totalSize_append, totalSize_cons]
      · simp [allocateIn, hsz, totalSize_append, totalSize_cons, newBlock, totalSize_nil]
        ring
    · intro b hb
      rw [List.append_assoc] at hb
      rcases List.mem_append.1 hb with hb | hb
      · exact h2 b (by rw [hbs]; exact List.mem_append_left _ hb)
      · rcases List.mem_append.1 hb with hb | hb
        · by_cases hsz : reqSize = hole.size
          · simp only [allocateIn, if_pos hsz, List.mem_singleton] at hb
            subst hb
            exact h2 hole (by rw [hbs]; simp)
          · simp only [allocateIn, if_neg hsz, List.mem_cons, List.mem_singleton,
              List.not_mem_nil, or_false] at hb
            rcases hb with hb | hb
            · subst hb; exact hs
            · subst hb
              show 0 < hole.size - reqSize
              omega
        · exact h2 b (by rw [hbs]; simp [hb])
    · rw [hbs] at h3
      have hpre3 : I3 pre := I3_of_append_left h3
      have hpost3 : I3 (hole :: post) := I3_of_append_right h3
      by_cases hsz : reqSize = hole.size
      · simp only [allocateIn, if_pos hsz, List.append_assoc, List.singleton_append]
        rw [I3_append_owned _ _ _ (by simpa using hpm')]
        exact ⟨hpre3, @I3_of_append_right [hole] post hpost3⟩
      · simp only [allocateIn, if_neg hsz, List.append_assoc, List.cons_append,
          List.nil_append]
        rw [I3_append_owned _ _ _ (by simpa using hpm')]
        refine ⟨hpre3, ?_⟩
        rw [I3_cons_congr _ hole post (by simp [newBlock, hfree])]
        exact hpost3
    · rw [I4, hbs, ownerIds_append, ownerIds_cons, if_pos hfree] at h4
      have hnot : process ∉ ownerIds pre ++ ownerIds post := by
        intro hm
        rw [← ownerIds_append, mem_ownerIds] at hm
        obtain ⟨_, b, hb, hid⟩ := hm
        refine hno ⟨b, ?_, hid⟩
        rw [hbs]
        rcases List.mem_append.1 hb with hb | hb
        · exact List.mem_append_left _ hb
        · exact List.mem_append_right _ (List.mem_cons_of_mem _ hb)
      have hgoal : ownerIds (pre ++ allocateIn hole process reqSize ++ post)
          = ownerIds pre ++ process :: ownerIds post := by
        by_cases hsz : reqSize = hole.size
        · simp [allocateIn, hsz, ownerIds_append, ownerIds_cons, hpm']
        · simp [allocateIn, hsz, ownerIds_append, ownerIds_cons, hpm', newBlock]
      rw [I4, hgoal, List.nodup_middle, List.nodup_cons]
      exact ⟨hnot, h4⟩

theorem wellFormed_step (limit : Int) (bs : List Block) (cmd : Cmd) (hcmd : cmd.positive)
    (h : WellFormed limit bs) :
    ∃ bs', step (region limit bs) cmd = region limit bs' ∧ WellFormed limit bs' := by
  cases cmd with
  | rq process reqSize => exact wellFormed_bestFit limit bs process reqSize hcmd h
  | rl process => exact wellFormed_release limit bs process h
  | c => exact ⟨_, compaction_region limit bs, wellFormed_compaction limit bs h⟩

theorem wellFormed_foldl (limit : Int) (cmds : List Cmd) :
    ∀ bs, (∀ cmd ∈ cmds, cmd.positive) → WellFormed limit bs →
      ∃ bs', cmds.foldl step (region limit bs) = region limit bs' ∧ WellFormed limit bs' := by
  induction cmds with
  | nil => intro bs _ h; exact ⟨bs, rfl, h⟩
  | cons cmd cmds ih =>
    intro bs hv h
    obtain ⟨bs₁, h₁, hw₁⟩ := wellFormed_step limit bs cmd (hv cmd (List.mem_cons_self _ _)) h
    obtain ⟨bs₂, h₂, hw₂⟩ := ih bs₁ (fun x hx => hv x (List.mem_cons_of_mem _ hx)) hw₁
    exact ⟨bs₂, by rw [List.foldl_cons, h₁, h₂], hw₂⟩

/-! ## The reachable regions -/

/-- C3: every chain reached from `initialize(limit)` with `limit > 0` by a finite sequence
of `bestFit` calls with a positive size (and any process id, in particular any id `≥ 0`),
`release` calls and `compaction` calls is the dummy head followed by a non-empty list of
blocks that satisfies I1, I2, I3 and I4. -/
theorem reachable_invariants (limit : Int) (cmds : List Cmd) (hl : 0 < limit)
    (hv : ∀ cmd ∈ cmds, cmd.positive) :
    ∃ bs, run limit cmds = region limit bs ∧ bs ≠ [] ∧
      I1 limit bs ∧ I2 bs ∧ I3 bs ∧ I4 bs := by
  obtain ⟨bs, hbs, hw⟩ :=
    wellFormed_foldl limit cmds [newBlock (-1) 0 limit] hv (wellFormed_init limit hl)
  exact ⟨bs, hbs, (wellFormed_iff limit bs).1 hw⟩

/-- C3 at a concrete run: four allocations, two releases and a compaction in a region of
size 400. -/
theorem reachable_invariants_witness :
    (0 : Int) < 400 ∧
    (∀ cmd ∈ [Cmd.rq 0 100, Cmd.rq 1 100, Cmd.rq 2 100, Cmd.rq 3 100, Cmd.rl 0, Cmd.rl 2,
      Cmd.c], cmd.positive) ∧
    ∃ bs, run 400 [Cmd.rq 0 100, Cmd.rq 1 100, Cmd.rq 2 100, Cmd.rq 3 100, Cmd.rl 0,
        Cmd.rl 2, Cmd.c] = region 400 bs ∧ bs ≠ [] ∧
      I1 400 bs ∧ I2 bs ∧ I3 bs ∧ I4 bs :=
  ⟨by decide, by decide,
    reachable_invariants 400 [Cmd.rq 0 100, Cmd.rq 1 100, Cmd.rq 2 100, Cmd.rq 3 100,
      Cmd.rl 0, Cmd.rl 2, Cmd.c] (by decide) (by decide)⟩

/-! ## Release as relabelling followed by the collapse of free runs -/

theorem mergeFreeFrom_free (nav : Block) (rest : List Block) (h : nav.id = -1) :
    mergeFreeFrom nav rest =
      { nav with size := nav.size + totalSize (rest.takeWhile (fun c => decide (c.id = -1))) }
        :: mergeFree (rest.dropWhile (fun c => decide (c.id = -1))) := by
  induction rest generalizing nav with
  | nil => simp [mergeFreeFrom, mergeFree, totalSize_nil]
  | cons n r ih =>
    by_cases hn : n.id = -1
    · have hc : nav.id = -1 ∧ n.id = -1 := ⟨h, hn⟩
      simp only [mergeFreeFrom, if_pos hc]
      rw [ih { nav with size := nav.size + n.size } h]
      simp [List.takeWhile_cons, List.dropWhile_cons, hn, totalSize_cons, add_assoc]
    · have hc : ¬ (nav.id = -1 ∧ n.id = -1) := fun hc => hn hc.2
      simp only [mergeFreeFrom, if_neg hc]
      simp [List.takeWhile_cons, List.dropWhile_cons, hn, totalSize_nil, mergeFree]

theorem collapseFreeRuns_eq_mergeFree (l : List Block) : collapseFreeRuns l = mergeFree l := by
  generalize hn : l.length = n
  induction n using Nat.strong_induction_on generalizing l with
  | _ n ih =>
    cases l with
    | nil => rw [collapseFreeRuns]; rfl
    | cons b rest =>
      rw [collapseFreeRuns]
      by_cases hb : b.id = -1
      · rw [if_pos hb, mergeFree, mergeFreeFrom_free b rest hb]
        have hlt : (rest.dropWhile (fun c => decide (c.id = -1))).length < n := by
          rw [← hn, List.length_cons]
          exact Nat.lt_succ_of_le (List.Sublist.length_le (List.dropWhile_sublist _))
        rw [ih _ hlt _ rfl]
        congr 1
        cases b
        simp only at hb
        simp [hb]
      · rw [if_neg hb, mergeFree, mergeFreeFrom_of_owned b rest hb]
        have hlt : rest.length < n := by rw [← hn]; simp
        rw [ih _ hlt _ rfl]

theorem relabelFree_eq_self (process : Int) (l : List Block)
    (h : ∀ b ∈ l, b.id = process → b.id = -1) : relabelFree process l = l := by
  induction l with
  | nil => rfl
  | cons a l ih =>
    have ha := h a (List.mem_cons_self _ _)
    have hl := ih (fun b hb => h b (List.mem_cons_of_mem _ hb))
    simp only [relabelFree, List.map_cons] at hl ⊢
    rw [hl]
    by_cases hid : a.id = process
    · rw [if_pos hid]
      cases a
      simp only at ha hid
      simp [ha hid]
    · rw [if_neg hid]

theorem I4_not_mem_post (pre : List Block) (x : Block) (post : List Block)
    (h4 : I4 (pre ++ x :: post)) (hx : x.id ≠ -1) : ∀ b ∈ post, b.id ≠ x.id := by
  intro b hb hid
  rw [I4, ownerIds_append, ownerIds_cons, if_neg hx] at h4
  have h := (List.nodup_cons.1 (List.Nodup.of_append_right h4)).1
  exact h ((mem_ownerIds _ _).2 ⟨hx, b, hb, hid⟩)

theorem relabelFree_first (process : Int) (pre : List Block) (x : Block) (post : List Block)
    (hx : x.id = process) (hpre : ∀ b ∈ pre, b.id ≠ process) (h4 : I4 (pre ++ x :: post)) :
    relabelFree process (pre ++ x :: post) = pre ++ { x with id := -1 } :: post := by
  have e1 : relabelFree process pre = pre :=
    relabelFree_eq_self process pre (fun b hb hid => absurd hid (hpre b hb))
  have e2 : relabelFree process post = post := by
    apply relabelFree_eq_self
    intro b hb hid
    by_cases hp : process = -1
    · rw [hid, hp]
    · exact absurd (hid.trans hx.symm) (I4_not_mem_post pre x post h4 (by rw [hx]; exact hp) b hb)
  simp only [relabelFree, List.map_append, List.map_cons] at e1 e2 ⊢
  rw [e1, e2, if_pos hx]

/-- C4: for every region that satisfies I3 and I4 (in particular I1 to I4) in which
`process` owns a block, `release` yields exactly the region obtained by relabelling that
block free and then collapsing every maximal run of consecutive free blocks of the whole
region into one free block that starts where the run starts and has the sum of the sizes
of the run. -/
theorem release_eq_relabel_then_collapse (limit : Int) (bs : List Block) (process : Int)
    (h3 : I3 bs) (h4 : I4 bs) (ho : owns process bs) :
    release (region limit bs) process =
      (region limit (collapseFreeRuns (relabelFree process bs)), ReleaseOutcome.released) := by
  obtain ⟨pre, x, post, hbs, hx, hpre, hres⟩ := release_found_merge limit bs process h3 ho
  rw [hres, collapseFreeRuns_eq_mergeFree, hbs,
    relabelFree_first process pre x post hx hpre (by rw [← hbs]; exact h4)]

/-- C4 at a concrete region: the released block of process 1 has a free predecessor and a
free successor, and the three become the one free block at 0 of size 300. -/
theorem release_eq_relabel_then_collapse_witness :
    I3 [⟨-1, 0, 100⟩, ⟨1, 100, 100⟩, ⟨-1, 200, 100⟩, ⟨2, 300, 100⟩] ∧
    I4 [⟨-1, 0, 100⟩, ⟨1, 100, 100⟩, ⟨-1, 200, 100⟩, ⟨2, 300, 100⟩] ∧
    owns 1 [⟨-1, 0, 100⟩, ⟨1, 100, 100⟩, ⟨-1, 200, 100⟩, ⟨2, 300, 100⟩] ∧
    release (region 400 [⟨-1, 0, 100⟩, ⟨1, 100, 100⟩, ⟨-1, 200, 100⟩, ⟨2, 300, 100⟩]) 1 =
      (region 400 (collapseFreeRuns (relabelFree 1
        [⟨-1, 0, 100⟩, ⟨1, 100, 100⟩, ⟨-1, 200, 100⟩, ⟨2, 300, 100⟩])),
        ReleaseOutcome.released) ∧
    release (region 400 [⟨-1, 0, 100⟩, ⟨1, 100, 100⟩, ⟨-1, 200, 100⟩, ⟨2, 300, 100⟩]) 1 =
      (region 400 [⟨-1, 0, 300⟩, ⟨2, 300, 100⟩], ReleaseOutcome.released) :=
  ⟨by decide, by decide, by decide,
    release_eq_relabel_then_collapse 400
      [⟨-1, 0, 100⟩, ⟨1, 100, 100⟩, ⟨-1, 200, 100⟩, ⟨2, 300, 100⟩] 1
      (by decide) (by decide) (by decide),
    by decide⟩

/-! ## Compaction -/

/-- C5, on the code: in the region reached by four allocations of 100 and the release of
processes 0 and 2, which satisfies I1 to I4, one call of `compaction` leaves the free
block at 100 between the blocks of processes 1 and 3, and two free blocks remain. -/
theorem compaction_leaves_hole_between_owned :
    run 400 [Cmd.rq 0 100, Cmd.rq 1 100, Cmd.rq 2 100, Cmd.rq 3 100, Cmd.rl 0, Cmd.rl 2]
      = region 400 [⟨-1, 0, 100⟩, ⟨1, 100, 100⟩, ⟨-1, 200, 100⟩, ⟨3, 300, 100⟩] ∧
    I1 400 [⟨-1, 0, 100⟩, ⟨1, 100, 100⟩, ⟨-1, 200, 100⟩, ⟨3, 300, 100⟩] ∧
    I2 [⟨-1, 0, 100⟩, ⟨1, 100, 100⟩, ⟨-1, 200, 100⟩, ⟨3, 300, 100⟩] ∧
    I3 [⟨-1, 0, 100⟩, ⟨1, 100, 100⟩, ⟨-1, 200, 100⟩, ⟨3, 300, 100⟩] ∧
    I4 [⟨-1, 0, 100⟩, ⟨1, 100, 100⟩, ⟨-1, 200, 100⟩, ⟨3, 300, 100⟩] ∧
    compaction (region 400 [⟨-1, 0, 100⟩, ⟨1, 100, 100⟩, ⟨-1, 200, 100⟩, ⟨3, 300, 100⟩])
      = region 400 [⟨1, 0, 100⟩, ⟨-1, 100, 100⟩, ⟨3, 200, 100⟩, ⟨-1, 300, 100⟩] := by
  decide

/-- C6: for every region, the (owner, size) pairs of the owned blocks, read in list order,
are the same before and after `compaction`, and so is the sum of the sizes of the free
blocks. -/
theorem compaction_preserves_owned_and_free (limit : Int) (bs : List Block) :
    ownedPairs (blocks (compaction (region limit bs))) = ownedPairs bs ∧
    freeSize (blocks (compaction (region limit bs))) = freeSize bs := by
  rw [compaction_region]
  simp only [blocks, region, List.tail_cons]
  exact ⟨by rw [mergeFree_ownedPairs, compactPass_ownedPairs],
    by rw [mergeFree_freeSize, compactPass_freeSize]⟩

/-! ## Rejected requests -/

/-- C7: for every region, every process that owns a block in it and every size, `bestFit`
reports that the process already exists and leaves the chain identical, whether or not a
free block is large enough and wherever it lies. -/
theorem bestFit_alreadyExists_of_owns (limit : Int) (bs : List Block)
    (process reqSize : Int) (h : owns process bs) :
    bestFit (region limit bs) process reqSize =
      (region limit bs, AllocOutcome.alreadyExists) :=
  bestFit_exists limit bs process reqSize (Or.inr h)

/-- C7 at a concrete region: process 1 owns the middle block, and free blocks that are
large enough lie both below and above it. -/
theorem bestFit_alreadyExists_of_owns_witness :
    owns 1 [⟨-1, 0, 100⟩, ⟨1, 100, 100⟩, ⟨-1, 200, 200⟩] ∧
    bestFit (region 400 [⟨-1, 0, 100⟩, ⟨1, 100, 100⟩, ⟨-1, 200, 200⟩]) 1 50 =
      (region 400 [⟨-1, 0, 100⟩, ⟨1, 100, 100⟩, ⟨-1, 200, 200⟩],
        AllocOutcome.alreadyExists) :=
  ⟨by decide,
    bestFit_alreadyExists_of_owns 400 [⟨-1, 0, 100⟩, ⟨1, 100, 100⟩, ⟨-1, 200, 200⟩] 1 50
      (by decide)⟩

/-- C8, on the code: a request made under the id `-2` of the dummy head node, or under the
id `-1` that marks free blocks (in a region reached by one allocation), is not rejected
for insufficient memory although no owned block carries that id and no free block is
large enough: it is rejected as already existing. -/
theorem bestFit_sentinel_ids_not_insufficient :
    ((-2 : Int) ∉ ownerIds [⟨1, 0, 100⟩] ∧ ¬ owns (-2) [⟨1, 0, 100⟩] ∧
      (∀ b ∈ [(⟨1, 0, 100⟩ : Block)], ¬ (b.id = -1 ∧ (10 : Int) ≤ b.size)) ∧
      (bestFit (region 100 [⟨1, 0, 100⟩]) (-2) 10).2 ≠ AllocOutcome.insufficientMemory ∧
      bestFit (region 100 [⟨1, 0, 100⟩]) (-2) 10 =
        (region 100 [⟨1, 0, 100⟩], AllocOutcome.alreadyExists)) ∧
    (run 100 [Cmd.rq 1 40] = region 100 [⟨1, 0, 40⟩, ⟨-1, 40, 60⟩] ∧
      (-1 : Int) ∉ ownerIds [⟨1, 0, 40⟩, ⟨-1, 40, 60⟩] ∧
      (∀ b ∈ [(⟨1, 0, 40⟩ : Block), ⟨-1, 40, 60⟩], ¬ (b.id = -1 ∧ (70 : Int) ≤ b.size)) ∧
      (bestFit (region 100 [⟨1, 0, 40⟩, ⟨-1, 40, 60⟩]) (-1) 70).2
        ≠ AllocOutcome.insufficientMemory ∧
      bestFit (region 100 [⟨1, 0, 40⟩, ⟨-1, 40, 60⟩]) (-1) 70 =
        (region 100 [⟨1, 0, 40⟩, ⟨-1, 40, 60⟩], AllocOutcome.alreadyExists)) := by
  decide

/-- C8 (amended): for every region and every process id that is neither the marker `-1`
of free blocks nor the head marker `-2` and that owns no block in it (no owned block
carries the id), `bestFit` reports insufficient memory if and only if no free block has
size at least `reqSize`, and it then leaves the chain identical. -/
theorem bestFit_insufficient_iff (limit : Int) (bs : List Block) (process reqSize : Int)
    (hfree : process ≠ -1) (hhead : process ≠ -2) (hno : process ∉ ownerIds bs) :
    ((bestFit (region limit bs) process reqSize).2 = AllocOutcome.insufficientMemory ↔
      ∀ b ∈ bs, ¬ (b.id = -1 ∧ reqSize ≤ b.size)) ∧
    ((bestFit (region limit bs) process reqSize).2 = AllocOutcome.insufficientMemory →
      (bestFit (region limit bs) process reqSize).1 = region limit bs) := by
  have hno' : ¬ owns process bs := fun h => hno ((mem_ownerIds process bs).2 ⟨hfree, h⟩)
  rcases bestFit_cases limit bs process reqSize with ⟨_, h⟩ | ⟨hres, _, _, hnone⟩ | h
  · rcases h with h | h
    · exact absurd h hhead
    · exact absurd h hno'
  · rw [hres]
    exact ⟨⟨fun _ => hnone, fun _ => rfl⟩, fun _ => rfl⟩
  · obtain ⟨pre, hole, post, ⟨hbs, hfree', hfit, _, _⟩, _, _, hres⟩ := h
    rw [hres]
    refine ⟨⟨fun h => (by cases h), fun h => ?_⟩, fun h => (by cases h)⟩
    exact absurd ⟨hfree', hfit⟩ (h hole (by rw [hbs]; simp))

/-- C8 at a concrete region: free blocks of 60 and 50 together would hold a request of
100, which is rejected because neither is large enough. -/
theorem bestFit_insufficient_iff_witness :
    (2 : Int) ≠ -1 ∧ (2 : Int) ≠ -2 ∧
    (2 : Int) ∉ ownerIds [⟨-1, 0, 60⟩, ⟨1, 60, 90⟩, ⟨-1, 150, 50⟩] ∧
    (((bestFit (region 200 [⟨-1, 0, 60⟩, ⟨1, 60, 90⟩, ⟨-1, 150, 50⟩]) 2 100).2
        = AllocOutcome.insufficientMemory ↔
      ∀ b ∈ [(⟨-1, 0, 60⟩ : Block), ⟨1, 60, 90⟩, ⟨-1, 150, 50⟩],
        ¬ (b.id = -1 ∧ (100 : Int) ≤ b.size)) ∧
    ((bestFit (region 200 [⟨-1, 0, 60⟩, ⟨1, 60, 90⟩, ⟨-1, 150, 50⟩]) 2 100).2
        = AllocOutcome.insufficientMemory →
      (bestFit (region 200 [⟨-1, 0, 60⟩, ⟨1, 60, 90⟩, ⟨-1, 150, 50⟩]) 2 100).1
        = region 200 [⟨-1, 0, 60⟩, ⟨1, 60, 90⟩, ⟨-1, 150, 50⟩])) ∧
    (bestFit (region 200 [⟨-1, 0, 60⟩, ⟨1, 60, 90⟩, ⟨-1, 150, 50⟩]) 2 100).2
      = AllocOutcome.insufficientMemory :=
  ⟨by decide, by decide, by decide,
    bestFit_insufficient_iff 200 [⟨-1, 0, 60⟩, ⟨1, 60, 90⟩, ⟨-1, 150, 50⟩] 2 100
      (by decide) (by decide) (by decide),
    by decide⟩

/-! ## Release of a process that owns nothing, or a block -/

theorem release_found_blocks (limit : Int) (bs : List Block) (process : Int)
    (h : owns process bs) :
    ∃ pre x post l, bs = pre ++ x :: post ∧ x.id = process ∧
      (∀ b ∈ pre, b.id ≠ process) ∧
      release (region limit bs) process = (region limit l, ReleaseOutcome.released) ∧
      totalSize l = totalSize bs ∧
      (∀ b ∈ l, ∃ c ∈ pre ++ { x with id := -1 } :: post, c.id = b.id) := by
  obtain ⟨pre, x, post, front, back, hbs, hx, hpre, hfront, hres⟩ :=
    release_found limit bs process h
  cases front with
  | nil =>
    simp only [region, List.nil_append, List.cons.injEq] at hfront
    obtain ⟨hback, hnil⟩ := hfront
    subst hnil
    refine ⟨[], x, post, mergeFreeFrom { x with id := -1 } post, hbs, hx, hpre, ?_, ?_, ?_⟩
    · rw [hres, List.nil_append, ← hback,
        mergeFreeFrom_of_owned _ _ (by simp [newBlock])]
      rfl
    · rw [mergeFreeFrom_totalSize, hbs]
      simp [totalSize_cons]
    · exact mergeFreeFrom_ids _ _
  | cons a f =>
    simp only [region, List.cons_append, List.cons.injEq] at hfront
    obtain ⟨ha, hpre'⟩ := hfront
    refine ⟨pre, x, post, f ++ mergeFreeFrom back ({ x with id := -1 } :: post),
      hbs, hx, hpre, ?_, ?_, ?_⟩
    · rw [hres, ← ha]; rfl
    · rw [totalSize_append, mergeFreeFrom_totalSize, hbs, hpre']
      simp [totalSize_append, totalSize_cons]
    · intro b hb
      rw [hpre']
      rcases List.mem_append.1 hb with hb | hb
      · exact ⟨b, by simp [hb], rfl⟩
      · obtain ⟨c, hc, hid⟩ := mergeFreeFrom_ids _ _ b hb
        exact ⟨c, by simpa using Or.inr hc, hid⟩

/-- C9: for every region and every process id `≥ 0`, `release` reports "not found" if and
only if no block of the region is owned by the process, and it then leaves the chain
identical; when the process owns a block of a region that satisfies I4, as every region
of the specification and every reachable chain does, no block is owned by it after the
call. -/
theorem release_notFound_iff (limit : Int) (bs : List Block) (process : Int)
    (hp : 0 ≤ process) :
    ((release (region limit bs) process).2 = ReleaseOutcome.notFound ↔
      ¬ owns process bs) ∧
    ((release (region limit bs) process).2 = ReleaseOutcome.notFound →
      (release (region limit bs) process).1 = region limit bs) ∧
    (owns process bs → I4 bs →
      (release (region limit bs) process).2 = ReleaseOutcome.released ∧
      ¬ owns process (blocks (release (region limit bs) process).1)) := by
  by_cases ho : owns process bs
  · obtain ⟨pre, x, post, l, hbs, hx, hpre, hres, _, hids⟩ :=
      release_found_blocks limit bs process ho
    rw [hres]
    refine ⟨⟨fun h => (by cases h), fun h => absurd ho h⟩, fun h => (by cases h), ?_⟩
    intro _ h4
    refine ⟨rfl, ?_⟩
    have hxfree : x.id ≠ -1 := by rw [hx]; omega
    have hpost : ∀ b ∈ post, b.id ≠ process := by
      intro b hb
      rw [← hx]
      exact I4_not_mem_post pre x post (by rw [← hbs]; exact h4) hxfree b hb
    rintro ⟨b, hb, hid⟩
    simp only [blocks, region, List.tail_cons] at hb
    obtain ⟨c, hc, hcid⟩ := hids b hb
    rw [hid] at hcid
    rcases List.mem_append.1 hc with hc | hc
    · exact hpre c hc hcid
    · rcases List.mem_cons.1 hc with hc | hc
      · subst hc
        simp only at hcid
        omega
      · exact hpost c hc hcid
  · rw [release_notFound limit bs process ho]
    exact ⟨⟨fun _ => ho, fun _ => rfl⟩, fun _ => rfl, fun ho' => absurd ho' ho⟩

/-- C9 at a concrete region: process 1 owns one block of a region with three blocks and
owns none after the call; process 3 owns none and the chain is left as it is. -/
theorem release_notFound_iff_witness :
    (0 : Int) ≤ 1 ∧
    owns 1 [⟨-1, 0, 100⟩, ⟨1, 100, 100⟩, ⟨2, 200, 100⟩] ∧
    I4 [⟨-1, 0, 100⟩, ⟨1, 100, 100⟩, ⟨2, 200, 100⟩] ∧
    ((release (region 300 [⟨-1, 0, 100⟩, ⟨1, 100, 100⟩, ⟨2, 200, 100⟩]) 1).2
        = ReleaseOutcome.released ∧
      ¬ owns 1 (blocks
        (release (region 300 [⟨-1, 0, 100⟩, ⟨1, 100, 100⟩, ⟨2, 200, 100⟩]) 1).1)) ∧
    release (region 300 [⟨-1, 0, 100⟩, ⟨1, 100, 100⟩, ⟨2, 200, 100⟩]) 1
      = (region 300 [⟨-1, 0, 200⟩, ⟨2, 200, 100⟩], ReleaseOutcome.released) ∧
    release (region 300 [⟨-1, 0, 100⟩, ⟨1, 100, 100⟩, ⟨2, 200, 100⟩]) 3
      = (region 300 [⟨-1, 0, 100⟩, ⟨1, 100, 100⟩, ⟨2, 200, 100⟩],
          ReleaseOutcome.notFound) :=
  ⟨by decide, by decide, by decide,
    (release_notFound_iff 300 [⟨-1, 0, 100⟩, ⟨1, 100, 100⟩, ⟨2, 200, 100⟩] 1
      (by decide)).2.2 (by decide) (by decide),
    by decide, by decide⟩

/-! ## Conservation of the total size -/

theorem bestFit_totalSize (limit : Int) (bs : List Block) (process reqSize : Int) :
    ∃ bs', (bestFit (region limit bs) process reqSize).1 = region limit bs' ∧
      totalSize bs' = totalSize bs := by
  rcases bestFit_cases limit bs process reqSize with ⟨hres, _⟩ | ⟨hres, _⟩ | hres
  · exact ⟨bs, by rw [hres], rfl⟩
  · exact ⟨bs, by rw [hres], rfl⟩
  · obtain ⟨pre, hole, post, ⟨hbs, _, _, _, _⟩, _, _, hres⟩ := hres
    refine ⟨_, by rw [hres], ?_⟩
    rw [hbs]
    by_cases hsz : reqSize = hole.size
    · simp [allocateIn, hsz, totalSize_append, totalSize_cons]
    · simp [allocateIn, hsz, totalSize_append, totalSize_cons, newBlock, totalSize_nil]
      ring

theorem release_totalSize (limit : Int) (bs : List Block) (process : Int) :
    ∃ bs', (release (region limit bs) process).1 = region limit bs' ∧
      totalSize bs' = totalSize bs := by
  by_cases ho : owns process bs
  · obtain ⟨pre, x, post, l, _, _, _, hres, ht, _⟩ := release_found_blocks limit bs process ho
    exact ⟨l, by rw [hres], ht⟩
  · exact ⟨bs, by rw [release_notFound limit bs process ho], rfl⟩

theorem step_totalSize (limit : Int) (bs : List Block) (cmd : Cmd) :
    ∃ bs', step (region limit bs) cmd = region limit bs' ∧ totalSize bs' = totalSize bs := by
  cases cmd with
  | rq process reqSize => exact bestFit_totalSize limit bs process reqSize
  | rl process => exact release_totalSize limit bs process
  | c =>
    exact ⟨_, compaction_region limit bs, by rw [mergeFree_totalSize, compactPass_totalSize]⟩

theorem foldl_totalSize (limit : Int) (cmds : List Cmd) :
    ∀ bs, ∃ bs', cmds.foldl step (region limit bs) = region limit bs' ∧
      totalSize bs' = totalSize bs := by
  induction cmds with
  | nil => intro bs; exact ⟨bs, rfl, rfl⟩
  | cons cmd cmds ih =>
    intro bs
    obtain ⟨bs₁, h₁, ht₁⟩ := step_totalSize limit bs cmd
    obtain ⟨bs₂, h₂, ht₂⟩ := ih bs₁
    exact ⟨bs₂, by rw [List.foldl_cons, h₁, h₂], by rw [ht₂, ht₁]⟩

/-- C10: for every region, the sum of the sizes of all blocks is the same after `bestFit`
(whatever its outcome), after `release` (whatever its outcome) and after `compaction` as
before; hence in every chain reached from `initialize(limit)` the sum is `limit`. -/
theorem operations_conserve_totalSize :
    (∀ (limit : Int) (bs : List Block) (process reqSize : Int),
      totalSize (blocks (bestFit (region limit bs) process reqSize).1) = totalSize bs) ∧
    (∀ (limit : Int) (bs : List Block) (process : Int),
      totalSize (blocks (release (region limit bs) process).1) = totalSize bs) ∧
    (∀ (limit : Int) (bs : List Block),
      totalSize (blocks (compaction (region limit bs))) = totalSize bs) ∧
    (∀ (limit : Int) (cmds : List Cmd), totalSize (blocks (run limit cmds)) = limit) := by
  refine ⟨?_, ?_, ?_, ?_⟩
  · intro limit bs process reqSize
    obtain ⟨bs', h, ht⟩ := bestFit_totalSize limit bs process reqSize
    rw [h]; exact ht
  · intro limit bs process
    obtain ⟨bs', h, ht⟩ := release_totalSize limit bs process
    rw [h]; exact ht
  · intro limit bs
    rw [compaction_region]
    show totalSize (mergeFree (compactPass bs)) = totalSize bs
    rw [mergeFree_totalSize, compactPass_totalSize]
  · intro limit cmds
    obtain ⟨bs', h, ht⟩ := foldl_totalSize limit cmds [newBlock (-1) 0 limit]
    have hrun : run limit cmds = region limit bs' := h
    rw [hrun]
    show totalSize bs' = limit
    rw [ht]
    simp [totalSize, newBlock]

/-! ## Allocation followed by release -/

theorem releaseFrom_first (process : Int) (nav : Block) (pre : List Block) (x : Block)
    (post : List Block) (hI : I3 (nav :: pre)) (hpre : ∀ b ∈ pre, b.id ≠ process)
    (hx : x.id = process) :
    releaseFrom process nav (pre ++ x :: post) =
      some (mergeFreeFrom nav (pre ++ { x with id := -1 } :: post)) := by
  induction pre generalizing nav with
  | nil => rw [List.nil_append, releaseFrom, if_pos hx]; rfl
  | cons a pre ih =>
    have ha : a.id ≠ process := hpre a (List.mem_cons_self _ _)
    have hc : ¬ (nav.id = -1 ∧ a.id = -1) := hI.1
    have hrec := ih a hI.2 (fun b hb => hpre b (List.mem_cons_of_mem _ hb))
    rw [List.cons_append, releaseFrom, if_neg ha, hrec, List.cons_append, mergeFreeFrom,
      if_neg hc]
    rfl

theorem release_first (limit : Int) (pre : List Block) (x : Block) (post : List Block)
    (process : Int) (hI : I3 pre) (hpre : ∀ b ∈ pre, b.id ≠ process) (hx : x.id = process) :
    release (region limit (pre ++ x :: post)) process =
      (region limit (mergeFree (pre ++ { x with id := -1 } :: post)),
        ReleaseOutcome.released) := by
  have hI' : I3 (newBlock (-2) (-2) limit :: pre) :=
    (I3_cons_owned _ _ (by simp [newBlock])).2 hI
  have h := releaseFrom_first process _ pre x post hI' hpre hx
  have hm : mergeFreeFrom (newBlock (-2) (-2) limit) (pre ++ { x with id := -1 } :: post)
      = region limit (mergeFree (pre ++ { x with id := -1 } :: post)) :=
    mergeFree_region limit (pre ++ { x with id := -1 } :: post)
  rw [hm] at h
  simp only [release, region, h]

theorem mergeFreeFrom_append_pair (nav : Block) (l₁ : List Block) (a b : Block)
    (l₂ : List Block) (ha : a.id = -1) (hb : b.id = -1) :
    mergeFreeFrom nav (l₁ ++ a :: b :: l₂) =
      mergeFreeFrom nav (l₁ ++ { a with size := a.size + b.size } :: l₂) := by
  induction l₁ generalizing nav with
  | nil =>
    have hab : a.id = -1 ∧ b.id = -1 := ⟨ha, hb⟩
    by_cases hn : nav.id = -1
    · have h1 : nav.id = -1 ∧ a.id = -1 := ⟨hn, ha⟩
      have h2 : ({ nav with size := nav.size + a.size } : Block).id = -1 ∧ b.id = -1 :=
        ⟨hn, hb⟩
      have h3 : nav.id = -1 ∧ ({ a with size := a.size + b.size } : Block).id = -1 :=
        ⟨hn, ha⟩
      simp only [List.nil_append]
      rw [mergeFreeFrom, if_pos h1, mergeFreeFrom, if_pos h2, mergeFreeFrom, if_pos h3]
      simp only [add_assoc]
    · have h1 : ¬ (nav.id = -1 ∧ a.id = -1) := fun h => hn h.1
      have h3 : ¬ (nav.id = -1 ∧ ({ a with size := a.size + b.size } : Block).id = -1) :=
        fun h => hn h.1
      simp only [List.nil_append]
      rw [mergeFreeFrom, if_neg h1, mergeFreeFrom, if_pos hab, mergeFreeFrom, if_neg h3]
  | cons c l ih =>
    by_cases hc : nav.id = -1 ∧ c.id = -1
    · rw [List.cons_append, List.cons_append, mergeFreeFrom, if_pos hc, mergeFreeFrom,
        if_pos hc]
      exact ih _
    · rw [List.cons_append, List.cons_append, mergeFreeFrom, if_neg hc, mergeFreeFrom,
        if_neg hc, ih c]

theorem mergeFree_append_pair (l₁ : List Block) (a b : Block) (l₂ : List Block)
    (ha : a.id = -1) (hb : b.id = -1) :
    mergeFree (l₁ ++ a :: b :: l₂) =
      mergeFree (l₁ ++ { a with size := a.size + b.size } :: l₂) := by
  cases l₁ with
  | nil =>
    have hab : a.id = -1 ∧ b.id = -1 := ⟨ha, hb⟩
    simp only [List.nil_append, mergeFree]
    rw [mergeFreeFrom, if_pos hab]
  | cons c l => exact mergeFreeFrom_append_pair c l a b l₂ ha hb

/-- C11: for every region that satisfies I3 (in particular I1 to I4), every process id
that owns no block in it and every size, `bestFit` followed by `release` of the same
process yields the chain it started from, block for block, whether the allocation
succeeded or was rejected. -/
theorem release_after_bestFit (limit : Int) (bs : List Block) (process reqSize : Int)
    (h3 : I3 bs) (hno : ¬ owns process bs) :
    (release (bestFit (region limit bs) process reqSize).1 process).1 = region limit bs := by
  rcases bestFit_cases limit bs process reqSize with ⟨hres, _⟩ | ⟨hres, _⟩ | hres
  · rw [hres, release_notFound limit bs process hno]
  · rw [hres, release_notFound limit bs process hno]
  · obtain ⟨pre, hole, post, ⟨hbs, hfree, _, _, _⟩, _, _, hres⟩ := hres
    have hpre : ∀ b ∈ pre, b.id ≠ process :=
      fun b hb hid => hno ⟨b, by rw [hbs]; exact List.mem_append_left _ hb, hid⟩
    have hIpre : I3 pre := I3_of_append_left (by rw [hbs] at h3; exact h3)
    have hhole : ({ id := -1, start := hole.start, size := hole.size } : Block) = hole := by
      cases hole
      simp only at hfree
      simp [hfree]
    rw [hres]
    by_cases hsz : reqSize = hole.size
    · have hl : pre ++ allocateIn hole process reqSize ++ post
          = pre ++ ({ hole with id := process } : Block) :: post := by
        simp [allocateIn, hsz]
      rw [hl, release_first limit pre _ post process hIpre hpre rfl]
      show (region limit (mergeFree (pre ++
        ({ id := -1, start := hole.start, size := hole.size } : Block) :: post))) = _
      rw [hhole, ← hbs, mergeFree_of_I3 bs h3]
    · have hl : pre ++ allocateIn hole process reqSize ++ post
          = pre ++ ({ hole with id := process, size := reqSize } : Block) ::
              (newBlock (-1) (hole.start + reqSize) (hole.size - reqSize) :: post) := by
        simp [allocateIn, hsz]
      rw [hl, release_first limit pre _ _ process hIpre hpre rfl,
        mergeFree_append_pair pre _ _ post rfl rfl]
      have hsum : (⟨-1, hole.start, reqSize + (hole.size - reqSize)⟩ : Block) = hole := by
        rw [← hhole]
        congr 1
        ring
      show (region limit (mergeFree (pre ++
        (⟨-1, hole.start, reqSize + (hole.size - reqSize)⟩ : Block) :: post))) = _
      rw [hsum, ← hbs, mergeFree_of_I3 bs h3]

/-- C11 at a concrete region: process 3 is given 40 out of the free block of 50 at 100 and
released again. -/
theorem release_after_bestFit_witness :
    I3 [⟨-1, 0, 80⟩, ⟨1, 80, 20⟩, ⟨-1, 100, 50⟩, ⟨2, 150, 10⟩] ∧
    ¬ owns 3 [⟨-1, 0, 80⟩, ⟨1, 80, 20⟩, ⟨-1, 100, 50⟩, ⟨2, 150, 10⟩] ∧
    (bestFit (region 160 [⟨-1, 0, 80⟩, ⟨1, 80, 20⟩, ⟨-1, 100, 50⟩, ⟨2, 150, 10⟩]) 3 40).2
      = AllocOutcome.allocated ∧
    (release (bestFit (region 160
        [⟨-1, 0, 80⟩, ⟨1, 80, 20⟩, ⟨-1, 100, 50⟩, ⟨2, 150, 10⟩]) 3 40).1 3).1
      = region 160 [⟨-1, 0, 80⟩, ⟨1, 80, 20⟩, ⟨-1, 100, 50⟩, ⟨2, 150, 10⟩] :=
  ⟨by decide, by decide, by decide,
    release_after_bestFit 160 [⟨-1, 0, 80⟩, ⟨1, 80, 20⟩, ⟨-1, 100, 50⟩, ⟨2, 150, 10⟩] 3 40
      (by decide) (by decide)⟩

/-! ## Two calls of `compaction` -/

/-- C12, on the code: in the region reached by four allocations of 100 and the release of
processes 0 and 2, which satisfies I1 to I4, the second call of `compaction` moves the
block of process 3 from 200 to 100 and joins the two free blocks, so two calls do not
give the region that one call gives. -/
theorem compaction_twice_differs_from_once :
    run 400 [Cmd.rq 0 100, Cmd.rq 1 100, Cmd.rq 2 100, Cmd.rq 3 100, Cmd.rl 0, Cmd.rl 2]
      = region 400 [⟨-1, 0, 100⟩, ⟨1, 100, 100⟩, ⟨-1, 200, 100⟩, ⟨3, 300, 100⟩] ∧
    I1 400 [⟨-1, 0, 100⟩, ⟨1, 100, 100⟩, ⟨-1, 200, 100⟩, ⟨3, 300, 100⟩] ∧
    I2 [⟨-1, 0, 100⟩, ⟨1, 100, 100⟩, ⟨-1, 200, 100⟩, ⟨3, 300, 100⟩] ∧
    I3 [⟨-1, 0, 100⟩, ⟨1, 100, 100⟩, ⟨-1, 200, 100⟩, ⟨3, 300, 100⟩] ∧
    I4 [⟨-1, 0, 100⟩, ⟨1, 100, 100⟩, ⟨-1, 200, 100⟩, ⟨3, 300, 100⟩] ∧
    compaction (region 400 [⟨-1, 0, 100⟩, ⟨1, 100, 100⟩, ⟨-1, 200, 100⟩, ⟨3, 300, 100⟩])
      = region 400 [⟨1, 0, 100⟩, ⟨-1, 100, 100⟩, ⟨3, 200, 100⟩, ⟨-1, 300, 100⟩] ∧
    compaction (compaction
        (region 400 [⟨-1, 0, 100⟩, ⟨1, 100, 100⟩, ⟨-1, 200, 100⟩, ⟨3, 300, 100⟩]))
      = region 400 [⟨1, 0, 100⟩, ⟨3, 100, 100⟩, ⟨-1, 200, 200⟩] ∧
    compaction (compaction
        (region 400 [⟨-1, 0, 100⟩, ⟨1, 100, 100⟩, ⟨-1, 200, 100⟩, ⟨3, 300, 100⟩]))
      ≠ compaction
        (region 400 [⟨-1, 0, 100⟩, ⟨1, 100, 100⟩, ⟨-1, 200, 100⟩, ⟨3, 300, 100⟩]) := by
  decide

/-! ## `mergeFree` applied twice -/

theorem mergeFree_filter_owned (l : List Block) :
    (mergeFree l).filter (fun b => decide (b.id ≠ -1))
      = l.filter (fun b => decide (b.id ≠ -1)) := by
  cases l with
  | nil => rfl
  | cons a r => exact mergeFreeFrom_ownedPairs a r

/-- C13: for every block list, `mergeFree` applied to its first node yields a list with no
two consecutive free blocks, a second application changes nothing, a list that already
has no two consecutive free blocks is returned unchanged, and the owned blocks of the
result are the owned blocks of the list, unaltered and in the same order. -/
theorem mergeFree_idempotent (l : List Block) :
    I3 (mergeFree l) ∧ mergeFree (mergeFree l) = mergeFree l ∧
    (I3 l → mergeFree l = l) ∧
    (mergeFree l).filter (fun b => decide (b.id ≠ -1))
      = l.filter (fun b => decide (b.id ≠ -1)) :=
  ⟨mergeFree_I3 l, mergeFree_of_I3 _ (mergeFree_I3 l), mergeFree_of_I3 l,
    mergeFree_filter_owned l⟩

/-- C13 at a concrete list: three consecutive free blocks around an owned block are
joined, and the result is returned unchanged by a second application. -/
theorem mergeFree_idempotent_witness :
    mergeFree [⟨-1, 0, 10⟩, ⟨-1, 10, 20⟩, ⟨1, 30, 5⟩, ⟨-1, 35, 5⟩, ⟨-1, 40, 5⟩, ⟨-1, 45, 5⟩]
      = [⟨-1, 0, 30⟩, ⟨1, 30, 5⟩, ⟨-1, 35, 15⟩] ∧
    I3 [⟨-1, 0, 30⟩, ⟨1, 30, 5⟩, ⟨-1, 35, 15⟩] ∧
    mergeFree [⟨-1, 0, 30⟩, ⟨1, 30, 5⟩, ⟨-1, 35, 15⟩]
      = [⟨-1, 0, 30⟩, ⟨1, 30, 5⟩, ⟨-1, 35, 15⟩] :=
  ⟨by decide, by decide,
    (mergeFree_idempotent [⟨-1, 0, 30⟩, ⟨1, 30, 5⟩, ⟨-1, 35, 15⟩]).2.2.1 (by decide)⟩

/-! ## Initialization and the worked scenario -/

/-- C14: for every `limit`, in particular every `limit > 0`, `initialize(limit)` yields the
dummy head node `(-2, -2, limit)`, which records `limit`, followed by exactly one block,
which is free, starts at 0 and has size `limit`; for `limit > 0` this region satisfies I1
to I4. -/
theorem initMemory_single_free_block (limit : Int) :
    initMemory limit = region limit [⟨-1, 0, limit⟩] ∧
    (initMemory limit).head? = some ⟨-2, -2, limit⟩ ∧
    blocks (initMemory limit) = [⟨-1, 0, limit⟩] ∧
    (0 < limit → I1 limit (blocks (initMemory limit)) ∧ I2 (blocks (initMemory limit)) ∧
      I3 (blocks (initMemory limit)) ∧ I4 (blocks (initMemory limit))) := by
  refine ⟨rfl, rfl, rfl, fun h => ?_⟩
  exact ((wellFormed_iff limit _).1 (wellFormed_init limit h)).2

/-- C16: the worked scenario.  From `initialize(1000)`, `bestFit(P1, 600)` gives P1 [0,599],
free [600,999]; `bestFit(P2, 300)` gives P1 [0,599], P2 [600,899], free [900,999];
`bestFit(P1, 50)` is rejected as already existing and changes nothing; `release(P1)` gives
free [0,599], P2 [600,899], free [900,999]; `compaction()` gives P2 [0,299], free
[300,999]. -/
theorem worked_scenario :
    initMemory 1000 = region 1000 [⟨-1, 0, 1000⟩] ∧
    bestFit (region 1000 [⟨-1, 0, 1000⟩]) 1 600
      = (region 1000 [⟨1, 0, 600⟩, ⟨-1, 600, 400⟩], AllocOutcome.allocated) ∧
    bestFit (region 1000 [⟨1, 0, 600⟩, ⟨-1, 600, 400⟩]) 2 300
      = (region 1000 [⟨1, 0, 600⟩, ⟨2, 600, 300⟩, ⟨-1, 900, 100⟩], AllocOutcome.allocated) ∧
    bestFit (region 1000 [⟨1, 0, 600⟩, ⟨2, 600, 300⟩, ⟨-1, 900, 100⟩]) 1 50
      = (region 1000 [⟨1, 0, 600⟩, ⟨2, 600, 300⟩, ⟨-1, 900, 100⟩],
          AllocOutcome.alreadyExists) ∧
    release (region 1000 [⟨1, 0, 600⟩, ⟨2, 600, 300⟩, ⟨-1, 900, 100⟩]) 1
      = (region 1000 [⟨-1, 0, 600⟩, ⟨2, 600, 300⟩, ⟨-1, 900, 100⟩],
          ReleaseOutcome.released) ∧
    compaction (region 1000 [⟨-1, 0, 600⟩, ⟨2, 600, 300⟩, ⟨-1, 900, 100⟩])
      = region 1000 [⟨2, 0, 300⟩, ⟨-1, 300, 700⟩] ∧
    (statusReport (region 1000 [⟨2, 0, 300⟩, ⟨-1, 300, 700⟩])).2
      = [⟨0, EndField.address 299, OwnerField.process 2⟩,
          ⟨300, EndField.endMarker, OwnerField.free⟩] ∧
    run 1000 [Cmd.rq 1 600, Cmd.rq 2 300, Cmd.rq 1 50, Cmd.rl 1, Cmd.c]
      = region 1000 [⟨2, 0, 300⟩, ⟨-1, 300, 700⟩] := by
  decide

/-! ## The status report -/

theorem statusReportFrom_eq_map (limit : Int) (l : List Block) :
    statusReportFrom limit l = l.map (fun b =>
      { start := b.start,
        stop := if b.start + b.size - 1 = limit - 1 then EndField.endMarker
          else EndField.address (b.start + b.size - 1),
        owner := if b.id = -1 then OwnerField.free else OwnerField.process b.id }) := by
  induction l with
  | nil => rfl
  | cons a l ih => simp only [statusReportFrom, ih, List.map_cons]

theorem totalSize_nonneg (l : List Block) (h : ∀ b ∈ l, 0 < b.size) : 0 ≤ totalSize l := by
  induction l with
  | nil => simp [totalSize_nil]
  | cons a l ih =>
    have ha := h a (List.mem_cons_self _ _)
    have hl := ih (fun b hb => h b (List.mem_cons_of_mem _ hb))
    rw [totalSize_cons]
    omega

theorem totalSize_pos (l : List Block) (h : ∀ b ∈ l, 0 < b.size) (hne : l ≠ []) :
    0 < totalSize l := by
  cases l with
  | nil => exact absurd rfl hne
  | cons a l =>
    have ha := h a (List.mem_cons_self _ _)
    have hl := totalSize_nonneg l (fun b hb => h b (List.mem_cons_of_mem _ hb))
    rw [totalSize_cons]
    omega

theorem contiguousFrom_end_iff (s : Int) (l : List Block) (hc : ContiguousFrom s l)
    (h2 : ∀ b ∈ l, 0 < b.size) :
    ∀ (i : Nat) (b : Block), l[i]? = some b →
      (b.start + b.size = s + totalSize l ↔ i + 1 = l.length) := by
  induction l generalizing s with
  | nil => intro i b hb; simp at hb
  | cons a r ih =>
    intro i b hb
    have hr2 : ∀ x ∈ r, 0 < x.size := fun x hx => h2 x (List.mem_cons_of_mem _ hx)
    cases i with
    | zero =>
      simp only [List.getElem?_cons_zero, Option.some.injEq] at hb
      subst hb
      rw [totalSize_cons, hc.1]
      by_cases hr : r = []
      · subst hr
        simp [totalSize_nil]
      · have := totalSize_pos r hr2 hr
        have hlen : 0 < r.length := List.length_pos.2 hr
        simp only [List.length_cons]
        constructor
        · intro h; omega
        · intro h; omega
    | succ j =>
      simp only [List.getElem?_cons_succ] at hb
      have := ih (s + a.size) hc.2 hr2 j b hb
      rw [totalSize_cons, List.length_cons, ← add_assoc, this]
      omega

/-- C15: for every region, `statusReport` leaves the chain as it is and emits exactly one
line per block, in list order, giving the start of the block, its end `start + size - 1`,
rendered as the END marker exactly when it equals `limit - 1`, and either Free or the id
of the owning process; in a region satisfying I1 and I2 the END marker appears on the
line of the last block and on no other. -/
theorem statusReport_lines (limit : Int) (bs : List Block) :
    (statusReport (region limit bs)).1 = region limit bs ∧
    (statusReport (region limit bs)).2 = bs.map (fun b =>
      { start := b.start,
        stop := if b.start + b.size - 1 = limit - 1 then EndField.endMarker
          else EndField.address (b.start + b.size - 1),
        owner := if b.id = -1 then OwnerField.free else OwnerField.process b.id }) ∧
    (I1 limit bs → I2 bs → ∀ (i : Nat) (line : ReportLine),
      (statusReport (region limit bs)).2[i]? = some line →
        (line.stop = EndField.endMarker ↔ i + 1 = bs.length)) := by
  have hlines : (statusReport (region limit bs)).2 = statusReportFrom limit bs := rfl
  refine ⟨rfl, by rw [hlines, statusReportFrom_eq_map], ?_⟩
  intro h1 h2 i line hline
  rw [hlines, statusReportFrom_eq_map, List.getElem?_map] at hline
  cases hb : bs[i]? with
  | none => rw [hb] at hline; simp at hline
  | some b =>
    rw [hb] at hline
    simp only [Option.map_some', Option.some.injEq] at hline
    cases bs with
    | nil => simp at hb
    | cons a r =>
      obtain ⟨hc, ht⟩ := (I1_cons_iff limit a r).1 h1
      have hend := contiguousFrom_end_iff 0 (a :: r) hc h2 i b hb
      rw [← hend, ← hline, ht]
      by_cases he : b.start + b.size - 1 = limit - 1
      · simp only [if_pos he, true_iff]
        omega
      · simp only [if_neg he]
        constructor
        · intro h; cases h
        · intro h; exact absurd (by omega) he

/-- C15 at a concrete region: three blocks of a region of size 300; only the last line
carries the END marker. -/
theorem statusReport_lines_witness :
    I1 300 [⟨-1, 0, 100⟩, ⟨1, 100, 100⟩, ⟨2, 200, 100⟩] ∧
    I2 [⟨-1, 0, 100⟩, ⟨1, 100, 100⟩, ⟨2, 200, 100⟩] ∧
    statusReport (region 300 [⟨-1, 0, 100⟩, ⟨1, 100, 100⟩, ⟨2, 200, 100⟩])
      = (region 300 [⟨-1, 0, 100⟩, ⟨1, 100, 100⟩, ⟨2, 200, 100⟩],
          [⟨0, EndField.address 99, OwnerField.free⟩,
            ⟨100, EndField.address 199, OwnerField.process 1⟩,
            ⟨200, EndField.endMarker, OwnerField.process 2⟩]) ∧
    (∀ (i : Nat) (line : ReportLine),
      (statusReport (region 300 [⟨-1, 0, 100⟩, ⟨1, 100, 100⟩, ⟨2, 200, 100⟩])).2[i]?
        = some line →
      (line.stop = EndField.endMarker ↔
        i + 1 = [(⟨-1, 0, 100⟩ : Block), ⟨1, 100, 100⟩, ⟨2, 200, 100⟩].length)) :=
  ⟨by decide, by decide, by decide,
    (statusReport_lines 300 [⟨-1, 0, 100⟩, ⟨1, 100, 100⟩, ⟨2, 200, 100⟩]).2.2
      (by decide) (by decide)⟩

/-! ## One call of `compaction` against its reference -/

theorem restart_append (s : Int) (l₁ l₂ : List Block) :
    restart s (l₁ ++ l₂) = restart s l₁ ++ restart (s + totalSize l₁) l₂ := by
  induction l₁ generalizing s with
  | nil => simp [restart, totalSize_nil]
  | cons a l ih =>
    rw [List.cons_append, restart, ih, restart, totalSize_cons, List.cons_append, add_assoc]

theorem compactFrom_free (nav : Block) (rest : List Block) (h : nav.id = -1) :
    compactFrom nav rest =
      restart nav.start rest ++ [⟨nav.id, nav.start + totalSize rest, nav.size⟩] := by
  induction rest generalizing nav with
  | nil =>
    cases nav
    simp [compactFrom, restart, totalSize_nil]
  | cons n r ih =>
    have hrec := ih ⟨nav.id, nav.start + n.size, nav.size⟩ h
    rw [compactFrom, if_pos h, hrec, restart, totalSize_cons, List.cons_append, add_assoc]

theorem compactPass_owned_append (pre l : List Block) (hpre : ∀ b ∈ pre, b.id ≠ -1) :
    compactPass (pre ++ l) = pre ++ compactPass l := by
  induction pre with
  | nil => rfl
  | cons a pre ih =>
    have ha : a.id ≠ -1 := hpre a (List.mem_cons_self _ _)
    have hrec := ih (fun b hb => hpre b (List.mem_cons_of_mem _ hb))
    rw [List.cons_append, compactPass, compactFrom_of_owned a _ ha, hrec, List.cons_append]

theorem mergeFree_owned_append (pre l : List Block) (hpre : ∀ b ∈ pre, b.id ≠ -1) :
    mergeFree (pre ++ l) = pre ++ mergeFree l := by
  induction pre with
  | nil => rfl
  | cons a pre ih =>
    have ha : a.id ≠ -1 := hpre a (List.mem_cons_self _ _)
    have hrec := ih (fun b hb => hpre b (List.mem_cons_of_mem _ hb))
    rw [List.cons_append, mergeFree, mergeFreeFrom_of_owned a _ ha, hrec, List.cons_append]

theorem first_free_split (bs : List Block) :
    ((∀ b ∈ bs, b.id ≠ -1) ∧ bs.takeWhile (fun b => decide (b.id ≠ -1)) = bs ∧
      bs.dropWhile (fun b => decide (b.id ≠ -1)) = []) ∨
    ∃ pre f rest, bs = pre ++ f :: rest ∧ (∀ b ∈ pre, b.id ≠ -1) ∧ f.id = -1 ∧
      bs.takeWhile (fun b => decide (b.id ≠ -1)) = pre ∧
      bs.dropWhile (fun b => decide (b.id ≠ -1)) = f :: rest := by
  induction bs with
  | nil => exact Or.inl ⟨by simp, rfl, rfl⟩
  | cons a l ih =>
    by_cases ha : a.id = -1
    · have hp : ¬ decide (a.id ≠ -1) = true := by simp [ha]
      exact Or.inr ⟨[], a, l, rfl, by simp, ha, by rw [List.takeWhile_cons, if_neg hp],
        by rw [List.dropWhile_cons, if_neg hp]⟩
    · have hp : decide (a.id ≠ -1) = true := by simp [ha]
      rcases ih with ⟨hall, htake, hdrop⟩ | ⟨pre, f, rest, hl, hpre, hf, htake, hdrop⟩
      · refine Or.inl ⟨?_, by rw [List.takeWhile_cons, if_pos hp, htake],
          by rw [List.dropWhile_cons, if_pos hp, hdrop]⟩
        intro b hb
        rcases List.mem_cons.1 hb with hb | hb
        · subst hb; exact ha
        · exact hall b hb
      · refine Or.inr ⟨a :: pre, f, rest, by simp [hl], ?_, hf,
          by rw [List.takeWhile_cons, if_pos hp, htake],
          by rw [List.dropWhile_cons, if_pos hp, hdrop]⟩
        intro b hb
        rcases List.mem_cons.1 hb with hb | hb
        · subst hb; exact ha
        · exact hpre b hb

theorem I1_contiguous (limit : Int) (bs : List Block) (h : I1 limit bs) :
    ContiguousFrom 0 bs := by
  cases bs with
  | nil => trivial
  | cons a r => exact ((I1_cons_iff limit a r).1 h).1

theorem compactPass_split (pre : List Block) (f : Block) (rest : List Block)
    (hpre : ∀ b ∈ pre, b.id ≠ -1) (hf : f.id = -1) :
    compactPass (pre ++ f :: rest) =
      pre ++ restart f.start (rest ++ [f]) := by
  rw [compactPass_owned_append pre _ hpre, compactPass, compactFrom_free f rest hf,
    restart_append]
  rfl

theorem compactPass_all_owned (bs : List Block) (h : ∀ b ∈ bs, b.id ≠ -1) :
    compactPass bs = bs := by
  have := compactPass_owned_append bs [] h
  simpa [compactPass] using this

theorem mergeFree_all_owned (bs : List Block) (h : ∀ b ∈ bs, b.id ≠ -1) :
    mergeFree bs = bs := by
  have := mergeFree_owned_append bs [] h
  simpa [mergeFree] using this

/-- C17: for every region that satisfies I1 (in particular I1 to I3), `compaction` equals
the reference: the first free block is removed and appended as the last block, the other
blocks keep their order, owners and sizes, the starts are recomputed from the first moved
position on as the running sum of the sizes, and adjacent free blocks are merged.  The
blocks before the first free block are untouched, and a region with no free block is
returned unchanged. -/
theorem compaction_eq_reference (limit : Int) (bs : List Block) (h1 : I1 limit bs) :
    compaction (region limit bs) = region limit (compactionReference bs) ∧
    (∃ l, blocks (compaction (region limit bs))
      = bs.takeWhile (fun b => decide (b.id ≠ -1)) ++ l) ∧
    ((∀ b ∈ bs, b.id ≠ -1) → compaction (region limit bs) = region limit bs) := by
  rw [compaction_region]
  have hunchanged : (∀ b ∈ bs, b.id ≠ -1) → mergeFree (compactPass bs) = bs := by
    intro hall
    rw [compactPass_all_owned bs hall, mergeFree_all_owned bs hall]
  rcases first_free_split bs with ⟨hall, htake, hdrop⟩ | ⟨pre, f, rest, hbs, hpre, hf, htake, hdrop⟩
  · refine ⟨?_, ⟨[], ?_⟩, fun h => by rw [hunchanged h]⟩
    · rw [hunchanged hall, compactionReference, hdrop]
    · rw [htake, hunchanged hall]
      simp [blocks, region]
  · have hstart : f.start = totalSize pre := by
      have hc := I1_contiguous limit bs h1
      rw [hbs, contiguousFrom_append] at hc
      have := hc.2.1
      omega
    have hpass : mergeFree (compactPass bs)
        = pre ++ mergeFree (restart (totalSize pre) (rest ++ [f])) := by
      rw [hbs, compactPass_split pre f rest hpre hf, hstart,
        mergeFree_owned_append pre _ hpre]
    refine ⟨?_, ⟨mergeFree (restart (totalSize pre) (rest ++ [f])), ?_⟩,
      fun h => by rw [hunchanged h]⟩
    · rw [compactionReference, hdrop]
      simp only [htake]
      rw [collapseFreeRuns_eq_mergeFree, mergeFree_owned_append pre _ hpre, hpass]
    · rw [htake, hpass]
      simp [blocks, region]

/-- C17 at a concrete region: the free block at 0 is carried behind the blocks of processes
1 and 3; the free block that was at 200 moves to 100 and stays between them. -/
theorem compaction_eq_reference_witness :
    I1 400 [⟨-1, 0, 100⟩, ⟨1, 100, 100⟩, ⟨-1, 200, 100⟩, ⟨3, 300, 100⟩] ∧
    compaction (region 400 [⟨-1, 0, 100⟩, ⟨1, 100, 100⟩, ⟨-1, 200, 100⟩, ⟨3, 300, 100⟩])
      = region 400 (compactionReference
          [⟨-1, 0, 100⟩, ⟨1, 100, 100⟩, ⟨-1, 200, 100⟩, ⟨3, 300, 100⟩]) ∧
    compaction (region 400 [⟨-1, 0, 100⟩, ⟨1, 100, 100⟩, ⟨-1, 200, 100⟩, ⟨3, 300, 100⟩])
      = region 400 [⟨1, 0, 100⟩, ⟨-1, 100, 100⟩, ⟨3, 200, 100⟩, ⟨-1, 300, 100⟩] :=
  ⟨by decide,
    (compaction_eq_reference 400
      [⟨-1, 0, 100⟩, ⟨1, 100, 100⟩, ⟨-1, 200, 100⟩, ⟨3, 300, 100⟩] (by decide)).1,
    by decide⟩

/-! ## Counting the free blocks that `compaction` still has to move -/

theorem freeCount_append (l₁ l₂ : List Block) :
    freeCount (l₁ ++ l₂) = freeCount l₁ + freeCount l₂ := by
  simp [freeCount]

theorem freeCount_cons (b : Block) (l : List Block) :
    freeCount (b :: l) = (if b.id = -1 then 1 else 0) + freeCount l := by
  by_cases h : b.id = -1 <;> simp [freeCount, List.filter_cons, h, Nat.add_comm]

theorem freeCount_all_owned (l : List Block) (h : ∀ b ∈ l, b.id ≠ -1) : freeCount l = 0 := by
  rw [freeCount, filter_id_eq_nil (-1) l h]
  rfl

theorem freeCount_restart (s : Int) (l : List Block) : freeCount (restart s l) = freeCount l := by
  induction l generalizing s with
  | nil => rfl
  | cons a l ih => rw [restart, freeCount_cons, freeCount_cons, ih]

theorem restart_map_id (s : Int) (l : List Block) :
    (restart s l).map (fun b => b.id) = l.map (fun b => b.id) := by
  induction l generalizing s with
  | nil => rfl
  | cons a l ih => rw [restart, List.map_cons, List.map_cons, ih]

theorem I3_congr_ids (l l' : List Block)
    (h : l.map (fun b => b.id) = l'.map (fun b => b.id)) : I3 l ↔ I3 l' := by
  induction l generalizing l' with
  | nil =>
    cases l' with
    | nil => exact Iff.rfl
    | cons a' r' => simp at h
  | cons a r ih =>
    cases l' with
    | nil => simp at h
    | cons a' r' =>
      simp only [List.map_cons, List.cons.injEq] at h
      obtain ⟨ha, hr⟩ := h
      cases r with
      | nil =>
        cases r' with
        | nil => exact ⟨fun _ => trivial, fun _ => trivial⟩
        | cons b' t' => simp at hr
      | cons b t =>
        cases r' with
        | nil => simp at hr
        | cons b' t' =>
          have hb : b.id = b'.id := by
            simp only [List.map_cons, List.cons.injEq] at hr
            exact hr.1
          have hrec := ih (b' :: t') hr
          show (¬ (a.id = -1 ∧ b.id = -1) ∧ I3 (b :: t)) ↔
            (¬ (a'.id = -1 ∧ b'.id = -1) ∧ I3 (b' :: t'))
          rw [ha, hb, hrec]

theorem I3_restart (s : Int) (l : List Block) : I3 (restart s l) ↔ I3 l :=
  I3_congr_ids _ _ (restart_map_id s l)

theorem I3_owned_append (pre l : List Block) (hpre : ∀ b ∈ pre, b.id ≠ -1) :
    I3 (pre ++ l) ↔ I3 l := by
  induction pre with
  | nil => exact Iff.rfl
  | cons a pre ih =>
    rw [List.cons_append, I3_cons_owned a _ (hpre a (List.mem_cons_self _ _))]
    exact ih (fun b hb => hpre b (List.mem_cons_of_mem _ hb))

theorem I3_tail (a : Block) (l : List Block) (h : I3 (a :: l)) : I3 l :=
  @I3_of_append_right [a] l h

theorem ownedPairs_all_owned_sum (l : List Block) (h : ∀ b ∈ l, b.id ≠ -1) :
    ((ownedPairs l).map Prod.snd).sum = totalSize l := by
  induction l with
  | nil => rfl
  | cons a l ih =>
    have ha : a.id ≠ -1 := h a (List.mem_cons_self _ _)
    rw [ownedPairs_cons, if_neg ha, List.map_cons, List.sum_cons, totalSize_cons,
      ih (fun b hb => h b (List.mem_cons_of_mem _ hb))]

theorem ownedPairs_all_free (l : List Block) (h : ∀ b ∈ l, b.id = -1) : ownedPairs l = [] := by
  induction l with
  | nil => rfl
  | cons a l ih =>
    rw [ownedPairs_cons, if_pos (h a (List.mem_cons_self _ _)),
      ih (fun b hb => h b (List.mem_cons_of_mem _ hb))]

theorem freeSize_all_owned (l : List Block) (h : ∀ b ∈ l, b.id ≠ -1) : freeSize l = 0 := by
  rw [freeSize, filter_id_eq_nil (-1) l h]
  rfl

theorem freeSize_append (l₁ l₂ : List Block) :
    freeSize (l₁ ++ l₂) = freeSize l₁ + freeSize l₂ := by
  simp [freeSize, totalSize_append]

theorem packedFrom_ownedPairs (s : Int) (l : List Block) (hc : ContiguousFrom s l)
    (h : ∀ b ∈ l, b.id ≠ -1) : packedFrom s (ownedPairs l) = l := by
  induction l generalizing s with
  | nil => rfl
  | cons a l ih =>
    have ha : a.id ≠ -1 := h a (List.mem_cons_self _ _)
    rw [ownedPairs_cons, if_neg ha, packedFrom,
      ih (s + a.size) hc.2 (fun b hb => h b (List.mem_cons_of_mem _ hb)), ← hc.1]

theorem interiorFree_all_owned (bs : List Block) (h : ∀ b ∈ bs, b.id ≠ -1) :
    interiorFree bs = 0 :=
  freeCount_all_owned _ (fun b hb => h b ((List.dropLast_sublist bs).subset hb))

theorem interiorFree_split_nil (pre : List Block) (f : Block)
    (hpre : ∀ b ∈ pre, b.id ≠ -1) : interiorFree (pre ++ [f]) = 0 := by
  rw [interiorFree, List.dropLast_concat, freeCount_all_owned pre hpre]

theorem interiorFree_split_concat (pre : List Block) (f : Block) (rest : List Block)
    (x : Block) (hpre : ∀ b ∈ pre, b.id ≠ -1) (hf : f.id = -1) :
    interiorFree (pre ++ f :: (rest ++ [x])) = 1 + freeCount rest := by
  have : pre ++ f :: (rest ++ [x]) = (pre ++ f :: rest) ++ [x] := by simp
  rw [interiorFree, this, List.dropLast_concat, freeCount_append, freeCount_cons,
    freeCount_all_owned pre hpre, if_pos hf, Nat.zero_add]

theorem compactStep_split (pre : List Block) (f : Block) (rest : List Block)
    (hpre : ∀ b ∈ pre, b.id ≠ -1) (hf : f.id = -1) :
    mergeFree (compactPass (pre ++ f :: rest))
      = pre ++ mergeFree (restart f.start (rest ++ [f])) := by
  rw [compactPass_split pre f rest hpre hf, mergeFree_owned_append pre _ hpre]

theorem compactStep_split_nil (pre : List Block) (f : Block)
    (hpre : ∀ b ∈ pre, b.id ≠ -1) (hf : f.id = -1) :
    mergeFree (compactPass (pre ++ [f])) = pre ++ [f] := by
  rw [compactStep_split pre f [] hpre hf]
  cases f
  rfl

theorem interiorFree_step_concat (pre : List Block) (f : Block) (rest : List Block)
    (x : Block) (hpre : ∀ b ∈ pre, b.id ≠ -1) (hf : f.id = -1) (h3 : I3 (rest ++ [x])) :
    interiorFree (mergeFree (compactPass (pre ++ f :: (rest ++ [x])))) = freeCount rest := by
  rw [compactStep_split pre f _ hpre hf]
  have hre : restart f.start (rest ++ [x] ++ [f])
      = restart f.start rest ++
          [{ x with start := f.start + totalSize rest },
            { f with start := f.start + totalSize rest + x.size }] := by
    rw [List.append_assoc, restart_append]
    rfl
  rw [hre]
  by_cases hx : x.id = -1
  · have hI : I3 (restart f.start rest ++ [{ x with start := f.start + totalSize rest }]) := by
      refine (I3_congr_ids _ (rest ++ [x]) ?_).2 h3
      simp [restart_map_id]
    have hm := append_mergeFreeFrom_eq (restart f.start rest)
      { x with start := f.start + totalSize rest }
      [{ f with start := f.start + totalSize rest + x.size }] hI
    have hboth : ({ x with start := f.start + totalSize rest } : Block).id = -1 ∧
        ({ f with start := f.start + totalSize rest + x.size } : Block).id = -1 := ⟨hx, hf⟩
    rw [← hm, mergeFreeFrom, if_pos hboth, mergeFreeFrom, ← List.append_assoc, interiorFree,
      List.dropLast_concat, freeCount_append, freeCount_all_owned pre hpre, freeCount_restart,
      Nat.zero_add]
  · have hI : I3 (restart f.start rest ++
        [{ x with start := f.start + totalSize rest },
          { f with start := f.start + totalSize rest + x.size }]) := by
      rw [I3_append_owned _ { x with start := f.start + totalSize rest } _ hx, I3_restart]
      exact ⟨I3_of_append_left h3, trivial⟩
    have hsplit : pre ++ (restart f.start rest ++
        [{ x with start := f.start + totalSize rest },
          { f with start := f.start + totalSize rest + x.size }])
        = (pre ++ restart f.start rest ++ [{ x with start := f.start + totalSize rest }])
          ++ [{ f with start := f.start + totalSize rest + x.size }] := by simp
    rw [mergeFree_of_I3 _ hI, hsplit, interiorFree, List.dropLast_concat, freeCount_append,
      freeCount_append, freeCount_all_owned pre hpre, freeCount_restart,
      freeCount_all_owned [{ x with start := f.start + totalSize rest }] (by simpa using hx)]
    omega

theorem interiorFree_step (bs : List Block) (h3 : I3 bs) :
    interiorFree (mergeFree (compactPass bs)) = interiorFree bs - 1 := by
  rcases first_free_split bs with ⟨hall, _, _⟩ | ⟨pre, f, rest, hbs, hpre, hf, _, _⟩
  · rw [compactPass_all_owned bs hall, mergeFree_all_owned bs hall,
      interiorFree_all_owned bs hall]
  · rcases List.eq_nil_or_concat rest with hnil | ⟨rest', x, hrest⟩
    · subst hnil
      rw [hbs, compactStep_split_nil pre f hpre hf, interiorFree_split_nil pre f hpre]
    · rw [List.concat_eq_append] at hrest
      subst hrest
      have hI : I3 (rest' ++ [x]) := by
        rw [hbs] at h3
        exact I3_tail f _ (I3_of_append_right h3)
      rw [hbs, interiorFree_step_concat pre f rest' x hpre hf hI,
        interiorFree_split_concat pre f rest' x hpre hf]
      omega

theorem fullyCompacted_step (bs : List Block) :
    fullyCompacted (mergeFree (compactPass bs)) = fullyCompacted bs := by
  simp only [fullyCompacted, mergeFree_ownedPairs, compactPass_ownedPairs, mergeFree_freeSize,
    compactPass_freeSize]

theorem fullyCompacted_of_interiorFree_eq_zero (limit : Int) (bs : List Block)
    (h1 : I1 limit bs) (h2 : I2 bs) (h0 : interiorFree bs = 0) : fullyCompacted bs = bs := by
  have hc := I1_contiguous limit bs h1
  rcases first_free_split bs with ⟨hall, _, _⟩ | ⟨pre, f, rest, hbs, hpre, hf, _, _⟩
  · rw [fullyCompacted, packedFrom_ownedPairs 0 bs hc hall, freeSize_all_owned bs hall,
      if_pos rfl, List.append_nil]
  · rcases List.eq_nil_or_concat rest with hnil | ⟨rest', x, hrest⟩
    · subst hnil
      rw [hbs, contiguousFrom_append] at hc
      have hfs : f.start = totalSize pre := by
        have := hc.2.1
        omega
      have hpos : 0 < f.size := h2 f (by rw [hbs]; simp)
      have hfree : freeSize (pre ++ [f]) = f.size := by
        rw [freeSize_append, freeSize_all_owned pre hpre, freeSize_cons, if_pos hf]
        simp [freeSize, totalSize_nil]
      have hne : ¬ freeSize (pre ++ [f]) = 0 := by rw [hfree]; omega
      rw [hbs, fullyCompacted, if_neg hne, hfree, ownedPairs_append,
        ownedPairs_all_free [f] (by simpa using hf), List.append_nil,
        packedFrom_ownedPairs 0 pre hc.1 hpre, ownedPairs_all_owned_sum pre hpre, ← hfs]
      cases f
      simp only at hf
      simp [hf]
    · rw [List.concat_eq_append] at hrest
      subst hrest
      rw [hbs, interiorFree_split_concat pre f rest' x hpre hf] at h0
      omega

/-! ## Repeated compaction -/

theorem interiorFree_le_freeCount (bs : List Block) : interiorFree bs ≤ freeCount bs :=
  List.Sublist.length_le (List.Sublist.filter _ (List.dropLast_sublist bs))

theorem compaction_iterate_region (limit : Int) (j : Nat) :
    ∀ bs, Nat.iterate compaction j (region limit bs)
      = region limit (Nat.iterate (fun l => mergeFree (compactPass l)) j bs) := by
  induction j with
  | zero => intro bs; rfl
  | succ j ih =>
    intro bs
    rw [Function.iterate_succ_apply, compaction_region, ih, Function.iterate_succ_apply]

theorem compactStep_iterate (limit : Int) (j : Nat) :
    ∀ bs, WellFormed limit bs → interiorFree bs ≤ j →
      Nat.iterate (fun l => mergeFree (compactPass l)) j bs = fullyCompacted bs := by
  induction j with
  | zero =>
    intro bs hw h0
    obtain ⟨_, h1, h2, _, _⟩ := (wellFormed_iff limit bs).1 hw
    exact (fullyCompacted_of_interiorFree_eq_zero limit bs h1 h2 (Nat.le_zero.1 h0)).symm
  | succ j ih =>
    intro bs hw hj
    have hstep := interiorFree_step bs hw.2.2.2.2.1
    rw [Function.iterate_succ_apply,
      ih _ (wellFormed_compaction limit bs hw) (by rw [hstep]; omega),
      fullyCompacted_step]

/-- C18: for every region that satisfies I1 to I4 and contains `k` free blocks, `k` calls of
`compaction` yield the fully compacted region: the owned blocks in their original order
and with their original sizes, packed from address 0, followed, when there is free space,
by one free block that holds all of it; a further call of `compaction` changes nothing. -/
theorem compaction_iterate_fullyCompacted (limit : Int) (bs : List Block)
    (h1 : I1 limit bs) (h2 : I2 bs) (h3 : I3 bs) (h4 : I4 bs) :
    Nat.iterate compaction (freeCount bs) (region limit bs)
      = region limit (fullyCompacted bs) ∧
    compaction (region limit (fullyCompacted bs)) = region limit (fullyCompacted bs) := by
  by_cases hne : bs = []
  · subst hne
    exact ⟨rfl, rfl⟩
  · have hw : WellFormed limit bs := (wellFormed_iff limit bs).2 ⟨hne, h1, h2, h3, h4⟩
    have hk := compactStep_iterate limit (freeCount bs) bs hw (interiorFree_le_freeCount bs)
    have hk1 := compactStep_iterate limit (freeCount bs + 1) bs hw
      (Nat.le_succ_of_le (interiorFree_le_freeCount bs))
    rw [Function.iterate_succ_apply', hk] at hk1
    exact ⟨by rw [compaction_iterate_region, hk], by rw [compaction_region, hk1]⟩

/-- C18 at a concrete region: two free blocks, and two calls of `compaction` pack the
blocks of processes 1 and 3 at 0 and 100 in front of one free block of 200. -/
theorem compaction_iterate_fullyCompacted_witness :
    I1 400 [⟨-1, 0, 100⟩, ⟨1, 100, 100⟩, ⟨-1, 200, 100⟩, ⟨3, 300, 100⟩] ∧
    I2 [⟨-1, 0, 100⟩, ⟨1, 100, 100⟩, ⟨-1, 200, 100⟩, ⟨3, 300, 100⟩] ∧
    I3 [⟨-1, 0, 100⟩, ⟨1, 100, 100⟩, ⟨-1, 200, 100⟩, ⟨3, 300, 100⟩] ∧
    I4 [⟨-1, 0, 100⟩, ⟨1, 100, 100⟩, ⟨-1, 200, 100⟩, ⟨3, 300, 100⟩] ∧
    freeCount [⟨-1, 0, 100⟩, ⟨1, 100, 100⟩, ⟨-1, 200, 100⟩, ⟨3, 300, 100⟩] = 2 ∧
    fullyCompacted [⟨-1, 0, 100⟩, ⟨1, 100, 100⟩, ⟨-1, 200, 100⟩, ⟨3, 300, 100⟩]
      = [⟨1, 0, 100⟩, ⟨3, 100, 100⟩, ⟨-1, 200, 200⟩] ∧
    (Nat.iterate compaction
        (freeCount [⟨-1, 0, 100⟩, ⟨1, 100, 100⟩, ⟨-1, 200, 100⟩, ⟨3, 300, 100⟩])
        (region 400 [⟨-1, 0, 100⟩, ⟨1, 100, 100⟩, ⟨-1, 200, 100⟩, ⟨3, 300, 100⟩])
      = region 400
          (fullyCompacted [⟨-1, 0, 100⟩, ⟨1, 100, 100⟩, ⟨-1, 200, 100⟩, ⟨3, 300, 100⟩]) ∧
    compaction (region 400
        (fullyCompacted [⟨-1, 0, 100⟩, ⟨1, 100, 100⟩, ⟨-1, 200, 100⟩, ⟨3, 300, 100⟩]))
      = region 400
          (fullyCompacted [⟨-1, 0, 100⟩, ⟨1, 100, 100⟩, ⟨-1, 200, 100⟩, ⟨3, 300, 100⟩])) :=
  ⟨by decide, by decide, by decide, by decide, by decide, by decide,
    compaction_iterate_fullyCompacted 400
      [⟨-1, 0, 100⟩, ⟨1, 100, 100⟩, ⟨-1, 200, 100⟩, ⟨3, 300, 100⟩]
      (by decide) (by decide) (by decide) (by decide)⟩

/-! ## Blocks that allocation and release leave alone -/

theorem release_found_owned (limit : Int) (bs : List Block) (process : Int)
    (h : owns process bs) :
    ∃ pre x post l, bs = pre ++ x :: post ∧ x.id = process ∧
      (∀ b ∈ pre, b.id ≠ process) ∧
      release (region limit bs) process = (region limit l, ReleaseOutcome.released) ∧
      l.filter (fun b => decide (b.id ≠ -1))
        = (pre ++ post).filter (fun b => decide (b.id ≠ -1)) := by
  obtain ⟨pre, x, post, front, back, hbs, hx, hpre, hfront, hres⟩ :=
    release_found limit bs process h
  cases front with
  | nil =>
    simp only [region, List.nil_append, List.cons.injEq] at hfront
    obtain ⟨hback, hnil⟩ := hfront
    subst hnil
    refine ⟨[], x, post, mergeFreeFrom { x with id := -1 } post, hbs, hx, hpre, ?_, ?_⟩
    · rw [hres, List.nil_append, ← hback,
        mergeFreeFrom_of_owned _ _ (by simp [newBlock])]
      rfl
    · rw [mergeFreeFrom_ownedPairs]
      simp [List.filter_cons]
  | cons a f =>
    simp only [region, List.cons_append, List.cons.injEq] at hfront
    obtain ⟨ha, hpre'⟩ := hfront
    refine ⟨pre, x, post, f ++ mergeFreeFrom back ({ x with id := -1 } :: post),
      hbs, hx, hpre, ?_, ?_⟩
    · rw [hres, ← ha]; rfl
    · rw [List.filter_append, mergeFreeFrom_ownedPairs, hpre']
      simp [List.filter_append, List.filter_cons]

/-- C19: for every region, a successful `bestFit` leaves the blocks before and after the
chosen hole as they are, in owner, start, size and order, and a successful `release`
leaves the owned blocks other than the released one as they are, in owner, start, size
and relative order; `compaction`, by contrast, does change the start of an owned
block. -/
theorem bestFit_and_release_keep_other_blocks :
    (∀ (limit : Int) (bs : List Block) (process reqSize : Int),
      (bestFit (region limit bs) process reqSize).2 = AllocOutcome.allocated →
      ∃ pre hole post, bs = pre ++ hole :: post ∧ hole.id = -1 ∧
        blocks (bestFit (region limit bs) process reqSize).1
          = pre ++ allocateIn hole process reqSize ++ post) ∧
    (∀ (limit : Int) (bs : List Block) (process : Int),
      (release (region limit bs) process).2 = ReleaseOutcome.released →
      ∃ pre x post, bs = pre ++ x :: post ∧ x.id = process ∧
        (∀ b ∈ pre, b.id ≠ process) ∧
        (blocks (release (region limit bs) process).1).filter (fun b => decide (b.id ≠ -1))
          = (pre ++ post).filter (fun b => decide (b.id ≠ -1))) ∧
    (∃ (limit : Int) (bs : List Block) (b : Block), b ∈ bs ∧ b.id ≠ -1 ∧
      b ∉ blocks (compaction (region limit bs)) ∧
      { b with start := 0 } ∈ blocks (compaction (region limit bs))) := by
  refine ⟨?_, ?_, ?_⟩
  · intro limit bs process reqSize hok
    rcases bestFit_cases limit bs process reqSize with ⟨h, _⟩ | ⟨h, _⟩ | h
    · rw [h] at hok; cases hok
    · rw [h] at hok; cases hok
    · obtain ⟨pre, hole, post, ⟨hbs, hfree, _, _, _⟩, _, _, hres⟩ := h
      exact ⟨pre, hole, post, hbs, hfree, by rw [hres]; rfl⟩
  · intro limit bs process hok
    by_cases ho : owns process bs
    · obtain ⟨pre, x, post, l, hbs, hx, hpre, hres, hl⟩ :=
        release_found_owned limit bs process ho
      exact ⟨pre, x, post, hbs, hx, hpre, by rw [hres]; exact hl⟩
    · rw [release_notFound limit bs process ho] at hok
      cases hok
  · exact ⟨1000, [⟨-1, 0, 600⟩, ⟨2, 600, 300⟩, ⟨-1, 900, 100⟩], ⟨2, 600, 300⟩,
      by decide, by decide, by decide, by decide⟩

/-- C19 at a concrete region: process 3 is allocated in the hole at 100 and process 1 is
released; the blocks of the other processes stay where they are. -/
theorem bestFit_and_release_keep_other_blocks_witness :
    bestFit (region 200 [⟨1, 0, 50⟩, ⟨2, 50, 50⟩, ⟨-1, 100, 100⟩]) 3 40
      = (region 200 [⟨1, 0, 50⟩, ⟨2, 50, 50⟩, ⟨3, 100, 40⟩, ⟨-1, 140, 60⟩],
          AllocOutcome.allocated) ∧
    release (region 200 [⟨1, 0, 50⟩, ⟨2, 50, 50⟩, ⟨-1, 100, 100⟩]) 1
      = (region 200 [⟨-1, 0, 50⟩, ⟨2, 50, 50⟩, ⟨-1, 100, 100⟩], ReleaseOutcome.released) ∧
    (∃ pre hole post, [(⟨1, 0, 50⟩ : Block), ⟨2, 50, 50⟩, ⟨-1, 100, 100⟩]
        = pre ++ hole :: post ∧ hole.id = -1 ∧
      blocks (bestFit (region 200 [⟨1, 0, 50⟩, ⟨2, 50, 50⟩, ⟨-1, 100, 100⟩]) 3 40).1
        = pre ++ allocateIn hole 3 40 ++ post) ∧
    (∃ pre x post, [(⟨1, 0, 50⟩ : Block), ⟨2, 50, 50⟩, ⟨-1, 100, 100⟩]
        = pre ++ x :: post ∧ x.id = 1 ∧ (∀ b ∈ pre, b.id ≠ 1) ∧
      (blocks (release (region 200 [⟨1, 0, 50⟩, ⟨2, 50, 50⟩, ⟨-1, 100, 100⟩]) 1).1).filter
          (fun b => decide (b.id ≠ -1))
        = (pre ++ post).filter (fun b => decide (b.id ≠ -1))) :=
  ⟨by decide, by decide,
    bestFit_and_release_keep_other_blocks.1 200
      [⟨1, 0, 50⟩, ⟨2, 50, 50⟩, ⟨-1, 100, 100⟩] 3 40 (by decide),
    bestFit_and_release_keep_other_blocks.2.1 200
      [⟨1, 0, 50⟩, ⟨2, 50, 50⟩, ⟨-1, 100, 100⟩] 1 (by decide)⟩

/-! ## The sentinel ids -/

theorem allocateIn_ids (hole : Block) (process reqSize : Int) :
    ∀ b ∈ allocateIn hole process reqSize, b.id = process ∨ b.id = -1 := by
  intro b hb
  by_cases hsz : reqSize = hole.size
  · simp only [allocateIn, if_pos hsz, List.mem_singleton] at hb
    subst hb; exact Or.inl rfl
  · simp only [allocateIn, if_neg hsz, List.mem_cons, List.mem_singleton, List.not_mem_nil,
      or_false] at hb
    rcases hb with hb | hb
    · subst hb; exact Or.inl rfl
    · subst hb; exact Or.inr rfl

theorem step_no_head_marker (limit : Int) (bs : List Block) (cmd : Cmd)
    (h : ∀ b ∈ bs, b.id ≠ -2) :
    ∃ bs', step (region limit bs) cmd = region limit bs' ∧ ∀ b ∈ bs', b.id ≠ -2 := by
  cases cmd with
  | rq process reqSize =>
    rcases bestFit_cases limit bs process reqSize with ⟨hres, _⟩ | ⟨hres, _⟩ | hres
    · exact ⟨bs, by rw [step, hres], h⟩
    · exact ⟨bs, by rw [step, hres], h⟩
    · obtain ⟨pre, hole, post, ⟨hbs, _, _, _, _⟩, hp, _, hres⟩ := hres
      refine ⟨_, by rw [step, hres], ?_⟩
      intro b hb
      rw [List.append_assoc] at hb
      rcases List.mem_append.1 hb with hb | hb
      · exact h b (by rw [hbs]; exact List.mem_append_left _ hb)
      · rcases List.mem_append.1 hb with hb | hb
        · rcases allocateIn_ids hole process reqSize b hb with hid | hid
          · rw [hid]; exact hp
          · rw [hid]; decide
        · exact h b (by rw [hbs]; simp [hb])
  | rl process =>
    by_cases ho : owns process bs
    · obtain ⟨pre, x, post, l, hbs, _, _, hres, _, hids⟩ :=
        release_found_blocks limit bs process ho
      refine ⟨l, by rw [step, hres], ?_⟩
      intro b hb
      obtain ⟨c, hc, hcid⟩ := hids b hb
      rw [← hcid]
      rcases List.mem_append.1 hc with hc | hc
      · exact h c (by rw [hbs]; exact List.mem_append_left _ hc)
      · rcases List.mem_cons.1 hc with hc | hc
        · subst hc
          show (-1 : Int) ≠ -2
          decide
        · exact h c (by rw [hbs]; simp [hc])
    · exact ⟨bs, by rw [step, release_notFound limit bs process ho], h⟩
  | c =>
    refine ⟨_, compaction_region limit bs, ?_⟩
    intro b hb hid
    have hmem : (-2 : Int) ∈ ownerIds (mergeFree (compactPass bs)) :=
      (mem_ownerIds _ _).2 ⟨by decide, b, hb, hid⟩
    rw [ownerIds_eq, mergeFree_ownedPairs, compactPass_ownedPairs, ← ownerIds_eq,
      mem_ownerIds] at hmem
    obtain ⟨_, c, hc, hcid⟩ := hmem
    exact h c hc hcid

theorem foldl_no_head_marker (limit : Int) (cmds : List Cmd) :
    ∀ bs, (∀ b ∈ bs, b.id ≠ -2) →
      ∃ bs', cmds.foldl step (region limit bs) = region limit bs' ∧
        ∀ b ∈ bs', b.id ≠ -2 := by
  induction cmds with
  | nil => intro bs h; exact ⟨bs, rfl, h⟩
  | cons cmd cmds ih =>
    intro bs h
    obtain ⟨bs₁, h₁, hn₁⟩ := step_no_head_marker limit bs cmd h
    obtain ⟨bs₂, h₂, hn₂⟩ := ih bs₁ hn₁
    exact ⟨bs₂, by rw [List.foldl_cons, h₁, h₂], hn₂⟩

/-- C20: for every chain headed by the dummy node `(-2, -2, limit)` and every size,
`bestFit` with the id `-2` is rejected as already existing, and with the id `-1` it is
rejected as already existing when a free block exists and for insufficient memory
otherwise; in each case the chain is left as it is, so a successful `bestFit` never
carries a sentinel id.  `bestFit`, `release`, `mergeFree` and `compaction` return a chain
with the same head node, and in every chain reached from `initialize(limit)` no block
carries the id `-2` of the head. -/
theorem sentinel_ids_never_allocated :
    (∀ (limit : Int) (bs : List Block) (reqSize : Int),
      bestFit (region limit bs) (-2) reqSize
        = (region limit bs, AllocOutcome.alreadyExists)) ∧
    (∀ (limit : Int) (bs : List Block) (reqSize : Int), (∃ b ∈ bs, b.id = -1) →
      bestFit (region limit bs) (-1) reqSize
        = (region limit bs, AllocOutcome.alreadyExists)) ∧
    (∀ (limit : Int) (bs : List Block) (reqSize : Int), (∀ b ∈ bs, b.id ≠ -1) →
      bestFit (region limit bs) (-1) reqSize
        = (region limit bs, AllocOutcome.insufficientMemory)) ∧
    (∀ (limit : Int) (bs : List Block) (process reqSize : Int),
      (bestFit (region limit bs) process reqSize).2 = AllocOutcome.allocated →
        process ≠ -1 ∧ process ≠ -2) ∧
    (∀ (limit : Int) (bs : List Block) (process reqSize : Int),
      ∃ bs', (bestFit (region limit bs) process reqSize).1 = region limit bs') ∧
    (∀ (limit : Int) (bs : List Block) (process : Int),
      ∃ bs', (release (region limit bs) process).1 = region limit bs') ∧
    (∀ (limit : Int) (bs : List Block),
      mergeFree (region limit bs) = region limit (mergeFree bs)) ∧
    (∀ (limit : Int) (bs : List Block),
      ∃ bs', compaction (region limit bs) = region limit bs') ∧
    (∀ (limit : Int) (cmds : List Cmd),
      ∃ bs, run limit cmds = region limit bs ∧ ∀ b ∈ bs, b.id ≠ -2) := by
  refine ⟨?_, ?_, ?_, ?_, ?_, ?_, ?_, ?_, ?_⟩
  · intro limit bs reqSize
    exact bestFit_exists limit bs (-2) reqSize (Or.inl rfl)
  · intro limit bs reqSize h
    exact bestFit_exists limit bs (-1) reqSize (Or.inr h)
  · intro limit bs reqSize h
    refine bestFit_insufficient limit bs (-1) reqSize (by decide) ?_ ?_
    · rintro ⟨b, hb, hid⟩
      exact h b hb hid
    · intro b hb hc
      exact h b hb hc.1
  · intro limit bs process reqSize hok
    rcases bestFit_cases limit bs process reqSize with ⟨h, _⟩ | ⟨h, _⟩ | h
    · rw [h] at hok; cases hok
    · rw [h] at hok; cases hok
    · obtain ⟨pre, hole, post, ⟨hbs, hfree, _, _, _⟩, hp, hno, _⟩ := h
      refine ⟨?_, hp⟩
      intro hm
      exact hno ⟨hole, by rw [hbs]; simp, by rw [hfree, hm]⟩
  · intro limit bs process reqSize
    obtain ⟨bs', h, _⟩ := bestFit_totalSize limit bs process reqSize
    exact ⟨bs', h⟩
  · intro limit bs process
    obtain ⟨bs', h, _⟩ := release_totalSize limit bs process
    exact ⟨bs', h⟩
  · exact mergeFree_region
  · intro limit bs
    exact ⟨_, compaction_region limit bs⟩
  · intro limit cmds
    refine foldl_no_head_marker limit cmds [newBlock (-1) 0 limit] ?_
    intro b hb
    simp only [List.mem_singleton] at hb
    subst hb
    show (-1 : Int) ≠ -2
    decide

/-- C20 at concrete regions: the requests `P.` (id `-2`) and `P/` (id `-1`) change nothing,
with and without a free block. -/
theorem sentinel_ids_never_allocated_witness :
    bestFit (region 100 [⟨-1, 0, 100⟩]) (-2) 10
      = (region 100 [⟨-1, 0, 100⟩], AllocOutcome.alreadyExists) ∧
    bestFit (region 100 [⟨1, 0, 40⟩, ⟨-1, 40, 60⟩]) (-1) 10
      = (region 100 [⟨1, 0, 40⟩, ⟨-1, 40, 60⟩], AllocOutcome.alreadyExists) ∧
    bestFit (region 100 [⟨1, 0, 100⟩]) (-1) 10
      = (region 100 [⟨1, 0, 100⟩], AllocOutcome.insufficientMemory) :=
  ⟨sentinel_ids_never_allocated.1 100 [⟨-1, 0, 100⟩] 10,
    sentinel_ids_never_allocated.2.1 100 [⟨1, 0, 40⟩, ⟨-1, 40, 60⟩] 10 (by decide),
    sentinel_ids_never_allocated.2.2.1 100 [⟨1, 0, 100⟩] 10 (by decide)⟩

end MemoryAllocator
